import Mathlib

/-!
Verification of the raw-REPL session protocol of the prototype-badge
web flasher (the `MicroPythonWrapper` class in the web-serial wrapper
module, plus the bundle-ordering steps of `usb.ts`).

JavaScript strings are modelled as `List Char`, byte arrays
(`Uint8Array`) as `List Nat` with every element below 256.  The
stateful framer (`readingUntil` / `readingBuffer` plus the resolve
callback) is modelled as an explicit state record together with a
step function `onData`; a whole wait is the fold `runChunks` over the
incoming chunk sequence, returning the text the promise resolves
with, if any.  Device-side behaviour (the MicroPython interpreter
executing the generated one-line commands, `ubinascii.b2a_base64`)
and the browser's `atob` are external to the repository and are
modelled from the spec where indicated.
-/

/-- Check that the first list occurs at the head of the second
(used to model position-0 matching of JS `String.indexOf`). -/
def strStarts : List Char → List Char → Bool
  | [], _ => true
  | _ :: _, [] => false
  | p :: ps, c :: cs => p == c && strStarts ps cs

/-- `strContains s pat` models `s.indexOf(pat) != -1` for JS strings:
substring containment, with the empty pattern always found. -/
def strContains : List Char → List Char → Bool
  | [], pat => pat.isEmpty
  | c :: t, pat => strStarts pat (c :: t) || strContains t pat

/-- `indexOfSub s pat` models `s.indexOf(pat)`: the first index at
which `pat` occurs in `s`, or `none` for the JS result `-1`. -/
def indexOfSub : List Char → List Char → Option Nat
  | [], pat => if strStarts pat [] then some 0 else none
  | c :: t, pat =>
      if strStarts pat (c :: t) then some 0
      else (indexOfSub t pat).map (· + 1)

/-- `sliceL s a b` models `s.slice(a, b)` for `0 ≤ a ≤ b`. -/
def sliceL (s : List Char) (a b : Nat) : List Char := (s.take b).drop a

/-- The state of the framer inside `MicroPythonWrapper`
(part_001 lines 8-9): the marker of the outstanding wait, if any,
and the text accumulated since that wait was registered. -/
structure FramerState where
  readingUntil : Option (List Char)
  readingBuffer : List Char
deriving DecidableEq, Repr

/-- `onData` (part_001 lines 56-73).  A chunk arriving while no wait
is outstanding is dropped.  Otherwise it is appended to the buffer;
if the buffer now contains the marker as a substring, the wait
resolves with the whole buffer and the state is reset.  The second
component is the text handed to `resolveReadingUntilPromise`, if the
chunk resolved the wait. -/
def onData (st : FramerState) (s : List Char) : FramerState × Option (List Char) :=
  match st.readingUntil with
  | none => (st, none)
  | some m =>
      let buf := st.readingBuffer ++ s
      if strContains buf m then (⟨none, []⟩, some buf)
      else (⟨some m, buf⟩, none)

/-- `readUntil` (part_001 lines 81-103).  Rejects (second component
`false`, the `Already running "read until"` rejection) when a wait is
outstanding, leaving the state untouched; otherwise clears the buffer
and registers the marker. -/
def readUntil (st : FramerState) (token : List Char) : FramerState × Bool :=
  if st.readingUntil.isSome then (st, false)
  else (⟨some token, []⟩, true)

/-- Feed chunks to `onData` one after the other; the result is the
text the outstanding wait resolves with, if some chunk resolved it. -/
def runChunks : FramerState → List (List Char) → Option (List Char)
  | _, [] => none
  | st, c :: cs =>
      match onData st c with
      | (_, some r) => some r
      | (st2, none) => runChunks st2 cs

/-- A whole `readUntil(m)` wait registered on an idle session before
the chunks arrive. -/
def awaitMarkerRun (m : List Char) (cs : List (List Char)) : Option (List Char) :=
  runChunks (readUntil ⟨none, []⟩ m).1 cs

/-- Number of chunks consumed until the accumulated text (starting
from `buf`) first contains the marker, counting from 1. -/
def firstHitAux : List Char → List Char → List (List Char) → Option Nat
  | _, _, [] => none
  | m, buf, c :: cs =>
      if strContains (buf ++ c) m then some 1
      else (firstHitAux m (buf ++ c) cs).map (· + 1)

/-- Index (counting from 1) of the first chunk whose arrival makes
the accumulated text contain the marker. -/
def firstHit (m : List Char) (cs : List (List Char)) : Option Nat :=
  firstHitAux m [] cs

/-- `chunksOfFuel s fuel l` splits `l` into consecutive pieces of
`s + 1` elements (the last may be shorter); `fuel ≥ l.length` makes
the fuel irrelevant.  This models the loops
`for (let i = 0; i < len; i += S) slice(i, i + S)`. -/
def chunksOfFuel (s : Nat) : Nat → List α → List (List α)
  | _, [] => []
  | 0, _ :: _ => []
  | fuel + 1, a :: t => (a :: t.take s) :: chunksOfFuel s fuel (t.drop s)

/-- Split a list into consecutive pieces of `s + 1` elements. -/
def chunksOfSucc (s : Nat) (l : List α) : List (List α) :=
  chunksOfFuel s l.length l

/-- The execution-trigger / EOF byte `0x04`. -/
def eotChar : Char := Char.ofNat 4

/-- The transport writes performed by `executeRaw` (part_001 lines
123-135): the source sliced into pieces of `S = 128` characters, in
order, followed by the single EOF byte. -/
def executeRawWrites (code : List Char) : List (List Char) :=
  chunksOfSucc 127 code ++ [[eotChar]]

/-- The completion marker `executeRaw` waits for: `'\x04>'`. -/
def executeRawMarker : List Char := [eotChar, '>']

/-- `executeRaw` returns the text captured by `readUntil` unchanged
(part_001 lines 132-134 perform no slicing). -/
def executeRawResult (captured : List Char) : List Char := captured

/-- The single-quote character. -/
def quoteC : Char := Char.ofNat 39

/-- The backslash character. -/
def backslashC : Char := Char.ofNat 92

/-- `path.replace(/'/g, "\\'")` (part_001 line 238): every single
quote in the path is replaced by backslash-quote. -/
def escapeQuotes (p : List Char) : List Char :=
  (p.map (fun c => if c = quoteC then [backslashC, quoteC] else [c])).flatten

/-- Command generated by `createFolder` (part_001 line 161); the path
is interpolated verbatim, without escaping. -/
def createFolderCommand (path : List Char) : List Char :=
  "import os;os.mkdir(".data ++ quoteC :: path ++ quoteC :: ")".data

/-- Command generated by `removeFolder` (part_001 line 170); the path
is interpolated verbatim. -/
def removeFolderCommand (path : List Char) : List Char :=
  "delete_folder(".data ++ quoteC :: path ++ quoteC :: ")".data

/-- Command generated by `createFile` (part_001 line 177); the path
is interpolated verbatim. -/
def createFileCommand (path : List Char) : List Char :=
  "f=open(".data ++ quoteC :: path ++ quoteC :: ", ".data
    ++ quoteC :: "w".data ++ quoteC :: ");f.close()".data

/-- Command generated by `removeFile` (part_001 lines 195-199); the
path is interpolated verbatim into a double-quoted literal. -/
def removeFileCommand (path : List Char) : List Char :=
  "import uos\ntry:\n  uos.remove(".data ++ '"' :: path
    ++ '"' :: ")\nexcept OSError:\n  print(0)\n".data

/-- Command generated by `loadFile` (part_001 line 208); the path is
interpolated verbatim. -/
def loadFileCommand (path : List Char) : List Char :=
  "with open(".data ++ quoteC :: path ++ quoteC :: ",".data
    ++ quoteC :: "r".data
    ++ quoteC :: ") as f:\n while 1:\n  b=f.read(256)\n  if not b:break\n  print(b,end=".data
    ++ quoteC :: quoteC :: ")".data

/-- Command generated by `downloadFile` (part_001 line 218); the path
is interpolated verbatim. -/
def downloadFileCommand (path : List Char) : List Char :=
  "with open(".data ++ quoteC :: path ++ quoteC :: ",".data
    ++ quoteC :: "rb".data
    ++ quoteC :: ") as f:\n  b = b2a_base64(f.read())\n  for i in b:\n    print( chr(i), end=".data
    ++ quoteC :: quoteC :: " )\n".data

/-- Command generated by `uploadFile` to open the destination
(part_001 line 239); here the path IS escaped first. -/
def uploadOpenCommand (path : List Char) : List Char :=
  "f=open(".data ++ quoteC :: escapeQuotes path ++ quoteC :: ",".data
    ++ quoteC :: "wb".data ++ quoteC :: ")\nw=f.write".data

/-- Parse a Python single-quoted string literal starting after the
opening quote: stops at the first unescaped quote, decodes the two
escapes `\'` and `\\`, keeps any other backslash pair verbatim (as
Python does), and returns the decoded content plus the remainder of
the input after the closing quote. -/
def parseSQBody : List Char → Option (List Char × List Char)
  | [] => none
  | c :: rest =>
      if c = quoteC then some ([], rest)
      else if c = backslashC then
        match rest with
        | [] => none
        | e :: rest2 =>
            match parseSQBody rest2 with
            | none => none
            | some (s, r) =>
                if e = quoteC ∨ e = backslashC then some (e :: s, r)
                else some (backslashC :: e :: s, r)
      else
        match parseSQBody rest with
        | none => none
        | some (s, r) => some (c :: s, r)

/-- Parse a full Python single-quoted string literal at the head of
the input. -/
def parseSingleQuoted : List Char → Option (List Char × List Char)
  | [] => none
  | c :: rest => if c = quoteC then parseSQBody rest else none

/-- Parse a Python double-quoted string literal starting after the
opening quote — `parseSQBody` with the roles of the two quote
characters swapped: stops at the first unescaped double quote,
decodes the two escapes for a double quote and a backslash, keeps
any other backslash pair verbatim. -/
def parseDQBody : List Char → Option (List Char × List Char)
  | [] => none
  | c :: rest =>
      if c = '"' then some ([], rest)
      else if c = backslashC then
        match rest with
        | [] => none
        | e :: rest2 =>
            match parseDQBody rest2 with
            | none => none
            | some (s, r) =>
                if e = '"' ∨ e = backslashC then some (e :: s, r)
                else some (backslashC :: e :: s, r)
      else
        match parseDQBody rest with
        | none => none
        | some (s, r) => some (c :: s, r)

/-- Parse a full Python double-quoted string literal at the head of
the input. -/
def parseDoubleQuoted : List Char → Option (List Char × List Char)
  | [] => none
  | c :: rest => if c = '"' then parseDQBody rest else none

/-- Byte arrays (`Uint8Array` contents). -/
abbrev Bytes := List Nat

/-- Digit accumulator for decimal rendering; the fuel is at least
one more than the digit count. -/
def natDecimalAux : Nat → Nat → List Char → List Char
  | 0, _, acc => acc
  | fuel + 1, n, acc =>
      let d := Char.ofNat (48 + n % 10)
      if n < 10 then d :: acc else natDecimalAux fuel (n / 10) (d :: acc)

/-- Decimal rendering of one byte. -/
def natDecimal (n : Nat) : List Char := natDecimalAux (n + 1) n []

/-- Comma-prefixed continuation of `decimalJoin`. -/
def decimalJoinRest : Bytes → List Char
  | [] => []
  | b :: rest => ',' :: (natDecimal b ++ decimalJoinRest rest)

/-- `String(uint8array)`: the elements joined with commas, as the
template interpolation `${c}` produces for a `Uint8Array`. -/
def decimalJoin : Bytes → List Char
  | [] => []
  | b :: rest => natDecimal b ++ decimalJoinRest rest

/-- The per-chunk command of `uploadFile` (part_001 line 242):
the chunk embedded as a literal decimal byte list appended to the
open handle. -/
def chunkCommand (c : Bytes) : List Char :=
  "w(bytes([".data ++ decimalJoin c ++ "]))".data

/-- The chunks `uploadFile` cuts its input into
(`CHUNK_SIZE = 512`, part_001 lines 234 and 240-241). -/
def uploadChunks (content : Bytes) : List Bytes :=
  chunksOfSucc 511 content

/-- The chunk commands issued by `uploadFile`, in order. -/
def uploadChunkCmds (content : Bytes) : List (List Char) :=
  (uploadChunks content).map chunkCommand

/-- The closing command of `uploadFile` (part_001 line 246). -/
def closeCommand : List Char := "f.close()".data

/-- Every command `uploadFile` runs through `executeRaw`, in order:
open, one command per chunk, close. -/
def uploadCommands (path : List Char) (content : Bytes) : List (List Char) :=
  uploadOpenCommand path :: uploadChunkCmds content ++ [closeCommand]

/-- The arguments of the successive progress-callback invocations of
`uploadFile` (part_001 lines 243-244): after chunk `k` (with loop
index `i = 512 * k`) the reporter gets `min(i + 512, total)` and
`total`. -/
def uploadReports (content : Bytes) : List (Nat × Nat) :=
  (List.range (uploadChunks content).length).map
    (fun k => (min (k * 512 + 512) content.length, content.length))

/-- Observable session state relevant to the disconnect
notification: the `isConnected` flag and the number of times
`onDisconnect` has been invoked. -/
structure SessionState where
  isConnected : Bool
  disconnectCalls : Nat
deriving DecidableEq, Repr

/-- One invocation site of the disconnect notification: clear the
flag, call the callback. -/
def fireDisconnect (s : SessionState) : SessionState :=
  ⟨false, s.disconnectCalls + 1⟩

/-- The done-branch of the background read loop (part_001 lines
40-45): the reader reports end of stream, the loop releases the lock,
marks the session not connected and invokes `onDisconnect`. -/
def readLoopDone (s : SessionState) : SessionState := fireDisconnect s

/-- The tail of `close()` (part_001 lines 272-273): after cancelling
the reader and closing the port, `close` unconditionally marks the
session not connected and invokes `onDisconnect` itself. -/
def closeTail (s : SessionState) : SessionState := fireDisconnect s

/-- A locally initiated `close()` (part_001 lines 266-274):
`reader.cancel()` resolves the loop's pending `read()` with
`done = true`, so the loop's done-branch runs, and `close` then runs
its own tail — both invocation sites fire. -/
def closeLocal (s : SessionState) : SessionState :=
  closeTail (readLoopDone s)

/-- One `(path, content)` entry of a firmware bundle. -/
structure BundleEntry where
  path : String
  content : Bytes
deriving DecidableEq, Repr

/-- `Map.set` over an insertion-ordered association list, as the
dedup steps use a JS `Map`: an existing key keeps its position and
takes the new content, a fresh key is appended. -/
def mapSet (m : List BundleEntry) (e : BundleEntry) : List BundleEntry :=
  if m.any (fun x => x.path == e.path) then
    m.map (fun x => if x.path == e.path then { x with content := e.content } else x)
  else m ++ [e]

/-- The dedup-by-path step of the zip-load call site (usb.ts lines
323-329): a `Map` filled from the entries in order, then read back.
The fetch-latest call site (usb.ts lines 571-576) has no such
step. -/
def dedupeByPath (l : List BundleEntry) : List BundleEntry :=
  l.foldl mapSet []

/-- Split a bundle at its first `/VERSION` entry, as
`findIndex` + `splice(versionIndex, 1)` does. -/
def splitAtVersion : List BundleEntry → Option (List BundleEntry × BundleEntry × List BundleEntry)
  | [] => none
  | e :: rest =>
      if e.path = "/VERSION" then some ([], e, rest)
      else
        match splitAtVersion rest with
        | none => none
        | some (pre, v, post) => some (e :: pre, v, post)

/-- The move-`/VERSION`-to-end step (usb.ts lines 331-336 and
571-576): remove the entry found by `findIndex` and push it at the
end; a bundle without `/VERSION` is left unchanged. -/
def moveVersionToEnd (l : List BundleEntry) : List BundleEntry :=
  match splitAtVersion l with
  | none => l
  | some (pre, v, post) => pre ++ post ++ [v]

/-- The zip-load call site's ordering pipeline (usb.ts lines
323-336): dedup by path, then move `/VERSION` to the end.  The
fetch-latest call site (usb.ts lines 571-576) runs only the move
step, with no preceding dedup. -/
def bundleOrder (l : List BundleEntry) : List BundleEntry :=
  moveVersionToEnd (dedupeByPath l)

/-- The paths of a bundle. -/
def pathsOf (l : List BundleEntry) : List String := l.map (·.path)

/-- Modelled from the spec: executing the per-chunk command
`w(bytes([...]))` appends the chunk's bytes to the open file, so
after `f.close()` the destination file holds the concatenation of
the chunks in order. -/
def deviceFileAfterUpload (content : Bytes) : Bytes :=
  (uploadChunks content).flatten

/-- The base64 alphabet. -/
def b64Alphabet : List Char :=
  "ABCDEFGHIJKLMNOPQRSTUVWXYZabcdefghijklmnopqrstuvwxyz0123456789+/".data

/-- The base64 digit of a sextet. -/
def b64Char (n : Nat) : Char := b64Alphabet.getD n '='

/-- The sextet stream of base64 encoding: three input bytes become
four sextets, a final one or two bytes become two or three sextets
with zero-padded low bits. -/
def encGroups : Bytes → List Nat
  | [] => []
  | [b1] => [b1 / 4, b1 % 4 * 16]
  | [b1, b2] => [b1 / 4, b1 % 4 * 16 + b2 / 16, b2 % 16 * 4]
  | b1 :: b2 :: b3 :: rest =>
      b1 / 4 :: (b1 % 4 * 16 + b2 / 16) :: (b2 % 16 * 4 + b3 / 64)
        :: b3 % 64 :: encGroups rest

/-- The `=` padding matching the input length. -/
def b64pad : Bytes → List Char
  | [] => []
  | [_] => ['=', '=']
  | [_, _] => ['=']
  | _ :: _ :: _ :: rest => b64pad rest

/-- Modelled from the spec: MicroPython `ubinascii.b2a_base64` —
standard base64 with `=` padding and one trailing newline.  This is
the encoder the spec's Helper Bootstrap is supposed to hand the
download command under the name `b2a_base64`; HELPER_CODE (part_001
lines 287-319) never defines that name, so on the device the
download command never reaches it. -/
def b2a_base64 (bs : Bytes) : List Char :=
  (encGroups bs).map b64Char ++ b64pad bs ++ [Char.ofNat 10]

/-- ASCII whitespace, which the forgiving-base64 decode of the
browser's `atob` removes before decoding. -/
def isB64Ws (c : Char) : Bool :=
  c == Char.ofNat 9 || c == Char.ofNat 10 || c == Char.ofNat 12
    || c == Char.ofNat 13 || c == ' '

/-- Position of a character in the base64 alphabet. -/
def b64Index (c : Char) : Option Nat :=
  let i := b64Alphabet.indexOf c
  if i < 64 then some i else none

/-- Decode a sextet stream back to bytes: four sextets become three
bytes, leftover groups of two or three sextets become one or two
bytes (the zero-padded low bits are dropped). -/
def decGroups : List Nat → Bytes
  | [] => []
  | [_] => []
  | [s1, s2] => [s1 * 4 + s2 / 16]
  | [s1, s2, s3] => [s1 * 4 + s2 / 16, s2 % 16 * 16 + s3 / 4]
  | s1 :: s2 :: s3 :: s4 :: rest =>
      (s1 * 4 + s2 / 16) :: (s2 % 16 * 16 + s3 / 4)
        :: (s3 % 4 * 64 + s4) :: decGroups rest

/-- The padding-stripping step of forgiving-base64: remove one or
two trailing `=`. -/
def dropB64Pad (l : List Char) : List Char :=
  if l.getLast? = some '=' then
    if l.dropLast.getLast? = some '=' then l.dropLast.dropLast
    else l.dropLast
  else l

/-- Modelled from the spec: the browser's `atob`, i.e. forgiving
base64 decoding — strip ASCII whitespace, strip `=` padding when the
length is a multiple of four, fail on a leftover length of one or on
characters outside the alphabet, else decode. -/
def atob (s : List Char) : Option Bytes :=
  let t0 := s.filter (fun c => !isB64Ws c)
  let t := if t0.length % 4 = 0 then dropB64Pad t0 else t0
  if t.length % 4 = 1 then none
  else
    match t.mapM b64Index with
    | some vs => some (decGroups vs)
    | none => none

/-- A representative NameError traceback; its exact text never
matters, as it lies entirely after the first EOF byte of the
response. -/
def nameErrorTraceback : List Char :=
  "Traceback (most recent call last):\n  File stdin, line 2, in module\nNameError: name b2a_base64 is not defined\n".data

/-- Modelled from the spec: in raw mode the device answers an
executed command with the `OK` marker, then the text printed to
stdout, then the EOF byte, then the traceback of any uncaught
exception, then the EOF byte and the prompt continuation `>` that
`executeRaw` waits for.  The download command (part_001 line 218)
opens the file and reads it, then calls `b2a_base64` — a name
HELPER_CODE (part_001 lines 287-319) never defines and that nothing
else in the session provides — so it raises NameError before
printing anything: the stdout part is empty whatever the file
holds. -/
def deviceDownloadResponse (_file : Bytes) : List Char :=
  'O' :: 'K' :: eotChar :: nameErrorTraceback ++ [eotChar, '>']

/-- The extraction step of `downloadFile` (part_001 lines 220-225):
slice between the end of the first `OK` and the first EOF byte;
an absent marker yields the empty result. -/
def downloadExtract (out : List Char) : List Char :=
  match indexOfSub out ['O', 'K'], indexOfSub out [eotChar] with
  | some i, some j => sliceL out (i + 2) j
  | _, _ => []

/-- `downloadFileToBytes` (part_001 lines 260-264) applied to the
modelled device response: extract the base64 payload and decode it
with `atob` (`Uint8Array.from` then reads the code of each decoded
character — in the model the decoder already yields bytes). -/
def downloadFileToBytes (file : Bytes) : Option Bytes :=
  atob (downloadExtract (deviceDownloadResponse file))

/-- `uploadFile(path, b)` followed by `downloadFileToBytes(path)` on
the modelled device. -/
def uploadDownloadRoundTrip (content : Bytes) : Option Bytes :=
  downloadFileToBytes (deviceFileAfterUpload content)

mutual
/-- A node of the device filesystem: a file or a directory with an
ordered forest of children (the `os.ilistdir` order).  Paths are
segment lists; the filesystem root `/` is the segment list `[]`. -/
inductive FSNode where
  | file (name : String)
  | dir (name : String) (children : FSForest)
/-- An ordered forest of filesystem nodes. -/
inductive FSForest where
  | nil
  | cons (t : FSNode) (ts : FSForest)
end

/-- The name of a node. -/
def nodeName : FSNode → String
  | FSNode.file n => n
  | FSNode.dir n _ => n

/-- Forest concatenation. -/
def fApp : FSForest → FSForest → FSForest
  | FSForest.nil, b => b
  | FSForest.cons t ts, b => FSForest.cons t (fApp ts b)

/-- The names of the roots of a forest. -/
def forestNames : FSForest → List String
  | FSForest.nil => []
  | FSForest.cons t ts => nodeName t :: forestNames ts

/-- Split a forest around its first node of the given name. -/
def splitChild : FSForest → String → Option (FSForest × FSNode × FSForest)
  | FSForest.nil, _ => none
  | FSForest.cons t ts, n =>
      if nodeName t = n then some (FSForest.nil, t, ts)
      else
        match splitChild ts n with
        | none => none
        | some (pre, u, post) => some (FSForest.cons t pre, u, post)

/-- Modelled from the spec: `os.remove(path)` on the device — remove
the file at the path, erroring on a missing entry, a directory, or
the root. -/
def osRemove : List String → FSForest → Except String FSForest
  | [], _ => Except.error "EINVAL"
  | [n], ts =>
      match splitChild ts n with
      | some (pre, FSNode.file _, post) => Except.ok (fApp pre post)
      | some (_, FSNode.dir _ _, _) => Except.error "EISDIR"
      | none => Except.error "ENOENT"
  | n :: m :: rest, ts =>
      match splitChild ts n with
      | some (pre, FSNode.dir d cs, post) =>
          match osRemove (m :: rest) cs with
          | Except.ok cs2 => Except.ok (fApp pre (FSForest.cons (FSNode.dir d cs2) post))
          | Except.error e => Except.error e
      | some (_, FSNode.file _, _) => Except.error "ENOTDIR"
      | none => Except.error "ENOENT"

/-- Modelled from the spec: `os.rmdir(path)` on the device — remove
the directory at the path, erroring on a missing entry, a file, a
non-empty directory, or the filesystem root. -/
def osRmdir : List String → FSForest → Except String FSForest
  | [], _ => Except.error "rmdir: cannot remove root"
  | [n], ts =>
      match splitChild ts n with
      | some (pre, FSNode.dir _ FSForest.nil, post) => Except.ok (fApp pre post)
      | some (_, FSNode.dir _ (FSForest.cons _ _), _) => Except.error "ENOTEMPTY"
      | some (_, FSNode.file _, _) => Except.error "ENOTDIR"
      | none => Except.error "ENOENT"
  | n :: m :: rest, ts =>
      match splitChild ts n with
      | some (pre, FSNode.dir d cs, post) =>
          match osRmdir (m :: rest) cs with
          | Except.ok cs2 => Except.ok (fApp pre (FSForest.cons (FSNode.dir d cs2) post))
          | Except.error e => Except.error e
      | some (_, FSNode.file _, _) => Except.error "ENOTDIR"
      | none => Except.error "ENOENT"

/-- Resolve a non-root path to the node it names. -/
def navigate : List String → FSForest → Option FSNode
  | [], _ => none
  | [n], ts => (splitChild ts n).map (fun x => x.2.1)
  | n :: m :: rest, ts =>
      match splitChild ts n with
      | some (_, FSNode.dir _ cs, _) => navigate (m :: rest) cs
      | _ => none

/-- The forest of children at a path (`[]` names the root). -/
def getSub : List String → FSForest → Option FSForest
  | [], ts => some ts
  | n :: rest, ts =>
      match splitChild ts n with
      | some (_, FSNode.dir _ cs, _) => getSub rest cs
      | _ => none

/-- Replace the forest of children at a path. -/
def setSubtree : List String → FSForest → FSForest → FSForest
  | [], cs2, _ => cs2
  | n :: rest, cs2, ts =>
      match splitChild ts n with
      | some (pre, FSNode.dir d cs, post) =>
          fApp pre (FSForest.cons (FSNode.dir d (setSubtree rest cs2 cs)) post)
      | _ => ts

/-- Remove the node at a non-root path, leaving everything else. -/
def eraseNode : List String → FSForest → FSForest
  | [], ts => ts
  | [n], ts =>
      match splitChild ts n with
      | some (pre, _, post) => fApp pre post
      | none => ts
  | n :: m :: rest, ts =>
      match splitChild ts n with
      | some (pre, FSNode.dir d cs, post) =>
          fApp pre (FSForest.cons (FSNode.dir d (eraseNode (m :: rest) cs)) post)
      | _ => ts

/-- One record of `get_all_files`: a path and its kind. -/
structure FileRec where
  path : List String
  isFolder : Bool
deriving DecidableEq, Repr

/-- Prepend a path to a record, as the helper builds
`p = path + '/' + file[0]` while recursing. -/
def prefixRec (p : List String) (r : FileRec) : FileRec :=
  ⟨p ++ r.path, r.isFolder⟩

mutual
/-- The records contributed by one node in `get_all_files`
(HELPER_CODE lines 294-305): the node's own record, then — for a
directory — the records of its subtree, depth first. -/
def nodeRecs : List String → FSNode → List FileRec
  | p, FSNode.file n => [⟨p ++ [n], false⟩]
  | p, FSNode.dir n cs => ⟨p ++ [n], true⟩ :: forestRecs (p ++ [n]) cs
/-- The records of a forest, in `os.ilistdir` order. -/
def forestRecs : List String → FSForest → List FileRec
  | _, FSForest.nil => []
  | p, FSForest.cons t ts => nodeRecs p t ++ forestRecs p ts
end

mutual
/-- Well-formedness of a node: its children, if any, are
well-formed. -/
def wfNode : FSNode → Bool
  | FSNode.file _ => true
  | FSNode.dir _ cs => wfForest cs
/-- Well-formedness of a forest: sibling names are distinct at every
level, as on a real filesystem. -/
def wfForest : FSForest → Bool
  | FSForest.nil => true
  | FSForest.cons t ts =>
      !(forestNames ts).contains (nodeName t) && wfNode t && wfForest ts
end

mutual
/-- A forest with every file removed and every directory kept. -/
def stripFilesF : FSForest → FSForest
  | FSForest.nil => FSForest.nil
  | FSForest.cons t ts => stripCons t (stripFilesF ts)
/-- Prepend the stripped form of one node to a forest. -/
def stripCons : FSNode → FSForest → FSForest
  | FSNode.file _, acc => acc
  | FSNode.dir n cs, acc => FSForest.cons (FSNode.dir n (stripFilesF cs)) acc
end

/-- The first loop of `delete_folder` (HELPER_CODE lines 312-314):
`os.remove` every record of kind file, in listing order. -/
def deleteFilePass : FSForest → List FileRec → Except String FSForest
  | ts, [] => Except.ok ts
  | ts, r :: rs =>
      if r.isFolder then deleteFilePass ts rs
      else
        match osRemove r.path ts with
        | Except.ok ts2 => deleteFilePass ts2 rs
        | Except.error e => Except.error e

/-- The second loop of `delete_folder` (HELPER_CODE lines 315-317):
`os.rmdir` every record of kind folder, in reversed listing order. -/
def deleteFolderPass : FSForest → List FileRec → Except String FSForest
  | ts, [] => Except.ok ts
  | ts, r :: rs =>
      if r.isFolder then
        match osRmdir r.path ts with
        | Except.ok ts2 => deleteFolderPass ts2 rs
        | Except.error e => Except.error e
      else deleteFolderPass ts rs

/-- `get_all_files(path)` (HELPER_CODE lines 294-305) with its error
behaviour: `os.ilistdir` raises on a missing path or a file, and
lists the children of the named directory (the root included). -/
def get_all_files (root : FSForest) : List String → Except String (List FileRec)
  | [] => Except.ok (forestRecs [] root)
  | n :: rest =>
      match navigate (n :: rest) root with
      | some (FSNode.dir _ cs) => Except.ok (forestRecs (n :: rest) cs)
      | some (FSNode.file _) => Except.error "ENOTDIR"
      | none => Except.error "ENOENT"

/-- `delete_folder(path)` (HELPER_CODE lines 310-318): list the
subtree, remove all file records, remove all folder records in
reversed order, finally `os.rmdir(path)` — unguarded, also for the
root. -/
def delete_folder (root : FSForest) (p : List String) : Except String FSForest :=
  match get_all_files root p with
  | Except.error e => Except.error e
  | Except.ok files =>
      match deleteFilePass root files with
      | Except.error e => Except.error e
      | Except.ok r1 =>
          match deleteFolderPass r1 files.reverse with
          | Except.error e => Except.error e
          | Except.ok r2 => osRmdir p r2

/-- Whether a device call succeeded. -/
def exceptOk : Except String FSForest → Bool
  | Except.ok _ => true
  | Except.error _ => false

theorem chunksOfFuel_flatten (s fuel : Nat) (l : List α) (h : l.length ≤ fuel) :
    (chunksOfFuel s fuel l).flatten = l := by
  induction fuel generalizing l with
  | zero =>
      cases l with
      | nil => simp [chunksOfFuel]
      | cons a t => simp at h
  | succ fuel ih =>
      cases l with
      | nil => simp [chunksOfFuel]
      | cons a t =>
          simp only [chunksOfFuel, List.flatten_cons]
          rw [ih (t.drop s)
            (by simp only [List.length_cons] at h; simp [List.length_drop]; omega)]
          simp

theorem chunksOfSucc_flatten (s : Nat) (l : List α) :
    (chunksOfSucc s l).flatten = l :=
  chunksOfFuel_flatten s l.length l le_rfl

theorem chunksOfFuel_short (s fuel : Nat) (l : List α) :
    ∀ c ∈ chunksOfFuel s fuel l, c.length ≤ s + 1 := by
  induction fuel generalizing l with
  | zero => cases l <;> simp [chunksOfFuel]
  | succ fuel ih =>
      cases l with
      | nil => simp [chunksOfFuel]
      | cons a t =>
          intro c hc
          simp only [chunksOfFuel, List.mem_cons] at hc
          rcases hc with rfl | hc
          · simp only [List.length_cons, List.length_take]
            omega
          · exact ih _ c hc

theorem chunksOfFuel512_length (fuel : Nat) (l : Bytes) (h : l.length ≤ fuel) :
    (chunksOfFuel 511 fuel l).length = (l.length + 511) / 512 := by
  induction fuel generalizing l with
  | zero =>
      cases l with
      | nil => simp [chunksOfFuel]
      | cons a t => simp at h
  | succ fuel ih =>
      cases l with
      | nil => simp [chunksOfFuel]
      | cons a t =>
          simp only [chunksOfFuel, List.length_cons]
          rw [ih (t.drop 511)
            (by simp only [List.length_cons] at h; simp [List.length_drop]; omega)]
          simp only [List.length_drop, List.length_cons]
          omega

/-- Claim C4: `executeRaw(s)` writes `s` as consecutive chunks of at
most 128 characters whose concatenation is `s`, in order, then the
single byte `0x04`, waits for the marker `0x04` followed by `>`, and
returns the captured text verbatim, with no slicing. -/
theorem executeRaw_protocol (code : List Char) :
    executeRawWrites code = chunksOfSucc 127 code ++ [[Char.ofNat 4]]
    ∧ (chunksOfSucc 127 code).flatten = code
    ∧ (∀ c ∈ chunksOfSucc 127 code, c.length ≤ 128)
    ∧ executeRawMarker = [Char.ofNat 4, '>']
    ∧ ∀ captured, executeRawResult captured = captured :=
  ⟨rfl, chunksOfSucc_flatten 127 code,
    fun c hc => chunksOfFuel_short 127 code.length code c hc,
    rfl, fun _ => rfl⟩

theorem executeRaw_protocol_witness :
    (chunksOfSucc 127 "print(1)".data).flatten = "print(1)".data
    ∧ executeRawMarker = [Char.ofNat 4, '>'] :=
  ⟨(executeRaw_protocol "print(1)".data).2.1,
    (executeRaw_protocol "print(1)".data).2.2.2.1⟩

/-- Claim C8: `uploadFile` issues exactly `⌈n / 512⌉` chunk commands
of at most 512 bytes each, whose chunks concatenate back to the
input, each embedding the chunk as a literal decimal byte list; the
progress callback is invoked after chunk `k` with
`min((k + 1) * 512, n)` and `n`; the open command comes first and the
handle is closed at the end. -/
theorem uploadFile_structure (path : List Char) (content : Bytes) :
    (uploadChunkCmds content).length = (content.length + 511) / 512
    ∧ (∀ c ∈ uploadChunks content, c.length ≤ 512)
    ∧ (uploadChunks content).flatten = content
    ∧ uploadChunkCmds content = (uploadChunks content).map chunkCommand
    ∧ uploadCommands path content
        = uploadOpenCommand path :: uploadChunkCmds content ++ [closeCommand]
    ∧ (uploadReports content).length = (uploadChunkCmds content).length
    ∧ ∀ k, k < (uploadChunkCmds content).length →
        (uploadReports content)[k]?
          = some (min ((k + 1) * 512) content.length, content.length) := by
  refine ⟨?_, ?_, chunksOfSucc_flatten 511 content, rfl, rfl, ?_, ?_⟩
  · simpa [uploadChunkCmds, uploadChunks] using
      chunksOfFuel512_length content.length content le_rfl
  · exact fun c hc => chunksOfFuel_short 511 content.length content c hc
  · simp [uploadReports, uploadChunkCmds]
  · intro k hk
    have hk2 : k < (uploadChunks content).length := by
      simpa [uploadChunkCmds] using hk
    simp only [uploadReports, List.getElem?_map, List.getElem?_range, hk2]
    rw [show (k + 1) * 512 = k * 512 + 512 by ring]
    rfl

theorem uploadFile_structure_witness :
    (uploadChunkCmds [7, 250]).length = (2 + 511) / 512
    ∧ (uploadChunks [7, 250]).flatten = [7, 250]
    ∧ (uploadReports [7, 250])[0]? = some (min (1 * 512) 2, 2) :=
  ⟨(uploadFile_structure [] [7, 250]).1,
    (uploadFile_structure [] [7, 250]).2.2.1,
    (uploadFile_structure [] [7, 250]).2.2.2.2.2.2 0 (by decide)⟩

theorem firstHitAux_spec (m : List Char) (cs : List (List Char)) :
    ∀ buf k, firstHitAux m buf cs = some k →
      runChunks ⟨some m, buf⟩ cs = some (buf ++ (cs.take k).flatten)
      ∧ strContains (buf ++ (cs.take k).flatten) m = true
      ∧ ∀ j, 1 ≤ j → j < k →
          strContains (buf ++ (cs.take j).flatten) m = false := by
  induction cs with
  | nil => intro buf k h; simp [firstHitAux] at h
  | cons c cs ih =>
      intro buf k h
      simp only [firstHitAux] at h
      by_cases hc : strContains (buf ++ c) m = true
      · rw [if_pos hc] at h
        have hk : k = 1 := by
          simpa using h.symm
        subst hk
        refine ⟨?_, ?_, ?_⟩
        · simp only [runChunks, onData]
          rw [hc]
          simp
        · simpa using hc
        · intro j h1 h2; omega
      · rw [if_neg hc] at h
        rcases Option.map_eq_some'.mp h with ⟨k2, hk2, rfl⟩
        obtain ⟨hrun, hhit, hmin⟩ := ih (buf ++ c) k2 hk2
        refine ⟨?_, ?_, ?_⟩
        · simp only [runChunks, onData]
          rw [if_neg hc]
          show runChunks ⟨some m, buf ++ c⟩ cs = _
          rw [hrun]
          simp [List.append_assoc]
        · simpa [List.append_assoc] using hhit
        · intro j h1 h2
          cases j with
          | zero => omega
          | succ j2 =>
              cases j2 with
              | zero => simpa using hc
              | succ j3 =>
                  have := hmin (j3 + 1) (by omega) (by omega)
                  simpa [List.append_assoc] using this

/-- Claim C1 (amended): a `readUntil(M)` wait registered before the
chunks arrive resolves, at the first chunk whose arrival makes the
accumulated text contain `M`, with the entire accumulated buffer —
the concatenation of all chunks up to and including that whole chunk
(which may extend past the first occurrence of `M`); the buffer does
contain `M`, and no strictly earlier chunk prefix did. -/
theorem awaitMarker_resolves_with_buffer (m : List Char)
    (cs : List (List Char)) (k : Nat) (h : firstHit m cs = some k) :
    awaitMarkerRun m cs = some ((cs.take k).flatten)
    ∧ strContains ((cs.take k).flatten) m = true
    ∧ ∀ j, 1 ≤ j → j < k → strContains ((cs.take j).flatten) m = false := by
  obtain ⟨hrun, hhit, hmin⟩ := firstHitAux_spec m cs [] k h
  refine ⟨?_, by simpa using hhit, fun j h1 h2 => by simpa using hmin j h1 h2⟩
  simpa [awaitMarkerRun, readUntil] using hrun

/-- Claim C1 is false as stated: with marker `M` and the single
chunk `aMb`, the wait resolves with `aMb`, which includes the byte
`b` lying beyond the first occurrence of `M` in the chunk that
completed the match — not with `aM`. -/
theorem awaitMarker_counterexample :
    awaitMarkerRun ['M'] [['a', 'M', 'b']] = some ['a', 'M', 'b']
    ∧ some (['a', 'M', 'b'] : List Char) ≠ some ['a', 'M'] := by
  constructor
  · decide
  · decide

theorem awaitMarker_resolves_with_buffer_witness :
    firstHit ['M'] [['a'], ['M', 'x'], ['z']] = some 2
    ∧ awaitMarkerRun ['M'] [['a'], ['M', 'x'], ['z']]
        = some (([['a'], ['M', 'x'], ['z']].take 2).flatten) :=
  ⟨by decide,
    (awaitMarker_resolves_with_buffer ['M'] [['a'], ['M', 'x'], ['z']] 2 (by decide)).1⟩

/-- Claim C3: a `readUntil` call made while a wait is outstanding is
rejected immediately with the already-running error, is not queued,
and leaves the outstanding wait's marker, buffer and future
evolution — hence its eventual resolution — unchanged. -/
theorem readUntil_second_call_rejected (st : FramerState)
    (m t : List Char) (h : st.readingUntil = some m) :
    readUntil st t = (st, false)
    ∧ ∀ cs, runChunks (readUntil st t).1 cs = runChunks st cs := by
  have hs : st.readingUntil.isSome = true := by rw [h]; rfl
  constructor
  · simp [readUntil, hs]
  · intro cs; simp [readUntil, hs]

theorem readUntil_second_call_rejected_witness :
    (FramerState.mk (some ['>']) ['x']).readingUntil = some ['>']
    ∧ readUntil ⟨some ['>'], ['x']⟩ ['a'] = (⟨some ['>'], ['x']⟩, false)
    ∧ runChunks (readUntil ⟨some ['>'], ['x']⟩ ['a']).1 [['>']]
        = runChunks ⟨some ['>'], ['x']⟩ [['>']] :=
  ⟨rfl,
    (readUntil_second_call_rejected ⟨some ['>'], ['x']⟩ ['>'] ['a'] rfl).1,
    (readUntil_second_call_rejected ⟨some ['>'], ['x']⟩ ['>'] ['a'] rfl).2 [['>']]⟩

/-- Claim C10: bytes arriving while no wait is outstanding are
dropped without touching any buffer; an accepted `readUntil` always
starts from the empty buffer; and a resolved wait leaves the session
with `readingUntil = null` and an empty buffer. -/
theorem idle_bytes_discarded :
    (∀ st s, st.readingUntil = none → onData st s = (st, none))
    ∧ (∀ st m, (readUntil st m).2 = true → (readUntil st m).1 = ⟨some m, []⟩)
    ∧ ∀ st s st2 r, onData st s = (st2, some r) → st2 = ⟨none, []⟩ := by
  refine ⟨?_, ?_, ?_⟩
  · intro st s h
    simp [onData, h]
  · intro st m h
    by_cases hs : st.readingUntil.isSome = true
    · simp [readUntil, hs] at h
    · simp [readUntil, hs]
  · intro st s st2 r h
    unfold onData at h
    cases hu : st.readingUntil with
    | none => rw [hu] at h; simp at h
    | some m =>
        rw [hu] at h
        by_cases hc : strContains (st.readingBuffer ++ s) m = true
        · simp only [hc, if_true] at h
          exact (Prod.mk.injEq _ _ _ _ ▸ h).1.symm ▸ rfl
        · simp only [hc, if_false] at h
          simp at h

theorem idle_bytes_discarded_witness :
    onData ⟨none, []⟩ ['x'] = (⟨none, []⟩, none)
    ∧ (readUntil ⟨none, ['z']⟩ ['m']).1 = ⟨some ['m'], []⟩
    ∧ (⟨none, []⟩ : FramerState) = ⟨none, []⟩ :=
  ⟨idle_bytes_discarded.1 ⟨none, []⟩ ['x'] rfl,
    idle_bytes_discarded.2.1 ⟨none, ['z']⟩ ['m'] rfl,
    idle_bytes_discarded.2.2 ⟨some ['m'], []⟩ ['m'] ⟨none, []⟩ ['m'] (by decide)⟩

/-- Claim C7 (amended): the read loop's end-of-stream branch invokes
the disconnect notification exactly once; but a locally initiated
`close()` invokes it twice — once from the read loop observing the
cancelled reader and once from `close()` itself. -/
theorem disconnect_invocation_counts (s : SessionState) :
    (readLoopDone s).disconnectCalls = s.disconnectCalls + 1
    ∧ (closeLocal s).disconnectCalls = s.disconnectCalls + 2 :=
  ⟨rfl, rfl⟩

/-- Claim C7 is false as stated: on a fresh session a local
`close()` fires the disconnect notification twice, not exactly
once. -/
theorem close_fires_disconnect_twice :
    (closeLocal ⟨true, 0⟩).disconnectCalls = 2 ∧ (2 : Nat) ≠ 1 := by
  constructor
  · decide
  · decide

theorem disconnect_invocation_counts_witness :
    (readLoopDone ⟨true, 0⟩).disconnectCalls = 0 + 1
    ∧ (closeLocal ⟨true, 0⟩).disconnectCalls = 0 + 2 :=
  disconnect_invocation_counts ⟨true, 0⟩

theorem escapeQuotes_cons (c : Char) (p : List Char) :
    escapeQuotes (c :: p)
      = (if c = quoteC then [backslashC, quoteC] else [c]) ++ escapeQuotes p := by
  simp [escapeQuotes]

theorem parseSQBody_escape (p : List Char) :
    backslashC ∉ p → ∀ suffix,
      parseSQBody (escapeQuotes p ++ quoteC :: suffix) = some (p, suffix) := by
  induction p with
  | nil =>
      intro _ suffix
      rw [show escapeQuotes [] = [] from rfl, List.nil_append]
      rw [parseSQBody.eq_def]
      simp
  | cons c p ih =>
      intro hn suffix
      have hc : c ≠ backslashC := by
        intro hcb; exact hn (hcb ▸ List.mem_cons_self c p)
      have hp : backslashC ∉ p := fun hm => hn (List.mem_cons_of_mem c hm)
      have ihs := ih hp suffix
      rw [escapeQuotes_cons]
      by_cases hq : c = quoteC
      · rw [if_pos hq]
        subst hq
        simp only [List.cons_append, List.nil_append]
        rw [parseSQBody.eq_def]
        simp only [if_neg (by decide : ¬backslashC = quoteC),
          if_pos (rfl : backslashC = backslashC)]
        rw [ihs]
        simp
      · rw [if_neg hq]
        simp only [List.cons_append, List.nil_append]
        rw [parseSQBody.eq_def]
        simp only [if_neg hq, if_neg hc]
        rw [ihs]

theorem parseDQBody_plain (p : List Char) :
    '"' ∉ p → backslashC ∉ p → ∀ suffix,
      parseDQBody (p ++ '"' :: suffix) = some (p, suffix) := by
  induction p with
  | nil =>
      intro _ _ suffix
      rw [List.nil_append, parseDQBody.eq_def]
      simp
  | cons c p ih =>
      intro hq hb suffix
      have hcq : c ≠ '"' := fun hh => hq (hh ▸ List.mem_cons_self c p)
      have hcb : c ≠ backslashC := fun hh => hb (hh ▸ List.mem_cons_self c p)
      have ihs := ih (fun hm => hq (List.mem_cons_of_mem c hm))
        (fun hm => hb (List.mem_cons_of_mem c hm)) suffix
      rw [List.cons_append, parseDQBody.eq_def]
      simp only [if_neg hcq, if_neg hcb]
      rw [ihs]

/-- Claim C5 (amended): only `uploadFile` escapes the path's single
quotes before interpolation — its open command embeds
`escapeQuotes path` between single quotes, and that quoted form
parses back (for paths without backslashes) to exactly the intended
path followed by the rest of the command, so the command stays
syntactically valid and targets the literal path.  `createFolder`,
`removeFolder`, `createFile`, `loadFile` and `downloadFile`
interpolate the path verbatim into a single-quoted literal, with no
escaping, so for them a single quote in the path breaks the command.
`removeFile` performs no escaping either, but interpolates the
verbatim path into a double-quoted literal, where a single quote is
harmless: for a path free of double quotes and backslashes its
command parses back to the intended path. -/
theorem path_escaping_upload_only (p suffix : List Char)
    (h : backslashC ∉ p) (h2 : '"' ∉ p) :
    uploadOpenCommand p
      = "f=open(".data ++ (quoteC :: escapeQuotes p ++ [quoteC])
        ++ ",".data ++ quoteC :: "wb".data ++ quoteC :: ")\nw=f.write".data
    ∧ parseSingleQuoted (quoteC :: escapeQuotes p ++ quoteC :: suffix)
        = some (p, suffix)
    ∧ createFolderCommand p
        = "import os;os.mkdir(".data ++ (quoteC :: p ++ [quoteC]) ++ ")".data
    ∧ removeFolderCommand p
        = "delete_folder(".data ++ (quoteC :: p ++ [quoteC]) ++ ")".data
    ∧ loadFileCommand p
        = "with open(".data ++ (quoteC :: p ++ [quoteC]) ++ ",".data
          ++ quoteC :: "r".data
          ++ quoteC :: ") as f:\n while 1:\n  b=f.read(256)\n  if not b:break\n  print(b,end=".data
          ++ quoteC :: quoteC :: ")".data
    ∧ downloadFileCommand p
        = "with open(".data ++ (quoteC :: p ++ [quoteC]) ++ ",".data
          ++ quoteC :: "rb".data
          ++ quoteC :: ") as f:\n  b = b2a_base64(f.read())\n  for i in b:\n    print( chr(i), end=".data
          ++ quoteC :: quoteC :: " )\n".data
    ∧ createFileCommand p
        = "f=open(".data ++ (quoteC :: p ++ [quoteC]) ++ ", ".data
          ++ quoteC :: "w".data ++ quoteC :: ");f.close()".data
    ∧ removeFileCommand p
        = "import uos\ntry:\n  uos.remove(".data ++ ('"' :: p ++ ['"'])
          ++ ")\nexcept OSError:\n  print(0)\n".data
    ∧ parseDoubleQuoted ('"' :: p ++ '"' :: suffix) = some (p, suffix) := by
  refine ⟨?_, ?_, ?_, ?_, ?_, ?_, ?_, ?_, ?_⟩
  · simp [uploadOpenCommand]
  · simp only [parseSingleQuoted, if_pos rfl]
    exact parseSQBody_escape p h suffix
  · simp [createFolderCommand]
  · simp [removeFolderCommand]
  · simp [loadFileCommand]
  · simp [downloadFileCommand]
  · simp [createFileCommand]
  · simp [removeFileCommand]
  · simp only [parseDoubleQuoted, if_pos rfl]
    exact parseDQBody_plain p h2 h suffix

/-- Claim C5 is false as stated: `createFolder` interpolates the
path without escaping its quote, so for the path `a'b` the generated
command embeds the raw path — its quoted literal parses as the path
`a` with leftover junk, not as the intended path `a'b` — and differs
from the command that escaping would have produced. -/
theorem path_escaping_counterexample :
    createFolderCommand ['a', quoteC, 'b']
      = "import os;os.mkdir(".data ++ quoteC :: ['a', quoteC, 'b'] ++ quoteC :: ")".data
    ∧ createFolderCommand ['a', quoteC, 'b']
      ≠ "import os;os.mkdir(".data
          ++ quoteC :: escapeQuotes ['a', quoteC, 'b'] ++ quoteC :: ")".data
    ∧ parseSingleQuoted (quoteC :: ['a', quoteC, 'b'] ++ quoteC :: ")".data)
      = some (['a'], 'b' :: quoteC :: ")".data)
    ∧ (['a'] : List Char) ≠ ['a', quoteC, 'b'] := by
  refine ⟨by decide, by decide, by decide, by decide⟩

theorem path_escaping_upload_only_witness :
    backslashC ∉ (['a', quoteC, 'b'] : List Char)
    ∧ '"' ∉ (['a', quoteC, 'b'] : List Char)
    ∧ parseSingleQuoted
        (quoteC :: escapeQuotes ['a', quoteC, 'b'] ++ quoteC :: ")".data)
      = some (['a', quoteC, 'b'], ")".data)
    ∧ parseDoubleQuoted ('"' :: ['a', quoteC, 'b'] ++ '"' :: ")".data)
      = some (['a', quoteC, 'b'], ")".data) :=
  ⟨by decide, by decide,
    (path_escaping_upload_only ['a', quoteC, 'b'] ")".data
      (by decide) (by decide)).2.1,
    (path_escaping_upload_only ['a', quoteC, 'b'] ")".data
      (by decide) (by decide)).2.2.2.2.2.2.2.2⟩

theorem pathsOf_mapSet (m : List BundleEntry) (e : BundleEntry) :
    pathsOf (mapSet m e)
      = if e.path ∈ pathsOf m then pathsOf m else pathsOf m ++ [e.path] := by
  unfold mapSet
  by_cases h : m.any (fun x => x.path == e.path) = true
  · have he : e.path ∈ pathsOf m := by
      rcases List.any_eq_true.mp h with ⟨x, hx, hxe⟩
      have : x.path = e.path := by simpa using hxe
      exact this ▸ List.mem_map_of_mem (·.path) hx
    rw [if_pos h, if_pos he]
    unfold pathsOf
    rw [List.map_map]
    apply List.map_congr_left
    intro x _
    simp only [Function.comp_apply]
    split <;> rfl
  · have he : e.path ∉ pathsOf m := by
      intro hmem
      rcases List.mem_map.mp hmem with ⟨x, hx, hxe⟩
      exact h (List.any_eq_true.mpr ⟨x, hx, by simpa using hxe⟩)
    rw [if_neg h, if_neg he]
    simp [pathsOf]

theorem dedupe_paths_nodup_aux (l : List BundleEntry) :
    ∀ acc : List BundleEntry,
      (pathsOf acc).Nodup → (pathsOf (l.foldl mapSet acc)).Nodup := by
  induction l with
  | nil => intro acc h; simpa using h
  | cons e l ih =>
      intro acc h
      simp only [List.foldl_cons]
      apply ih
      rw [pathsOf_mapSet]
      by_cases he : e.path ∈ pathsOf acc
      · rwa [if_pos he]
      · rw [if_neg he]
        exact List.Nodup.append h (List.nodup_singleton _)
          (by simpa [List.disjoint_singleton] using he)

theorem dedupe_mem_aux (l : List BundleEntry) :
    ∀ acc : List BundleEntry, ∀ k : String,
      k ∈ pathsOf acc ∨ k ∈ pathsOf l → k ∈ pathsOf (l.foldl mapSet acc) := by
  induction l with
  | nil =>
      intro acc k h
      rcases h with h | h
      · simpa using h
      · simp [pathsOf] at h
  | cons e l ih =>
      intro acc k h
      simp only [List.foldl_cons]
      apply ih
      rw [pathsOf_mapSet]
      rcases h with h | h
      · left
        by_cases he : e.path ∈ pathsOf acc
        · rwa [if_pos he]
        · rw [if_neg he]; exact List.mem_append_left _ h
      · have h2 : k ∈ e.path :: pathsOf l := by
          simpa only [pathsOf, List.map_cons] using h
        rcases List.mem_cons.mp h2 with h3 | h3
        · left
          by_cases he : e.path ∈ pathsOf acc
          · rw [if_pos he]; exact h3 ▸ he
          · rw [if_neg he]
            exact h3 ▸ List.mem_append_right _ (List.mem_singleton_self _)
        · right; exact h3

theorem splitAtVersion_spec (l : List BundleEntry) :
    ∀ pre v post, splitAtVersion l = some (pre, v, post) →
      l = pre ++ v :: post ∧ v.path = "/VERSION"
        ∧ ∀ e ∈ pre, e.path ≠ "/VERSION" := by
  induction l with
  | nil => intro pre v post h; simp [splitAtVersion] at h
  | cons e l ih =>
      intro pre v post h
      simp only [splitAtVersion] at h
      by_cases he : e.path = "/VERSION"
      · rw [if_pos he, Option.some.injEq, Prod.mk.injEq, Prod.mk.injEq] at h
        obtain ⟨h1, h2, h3⟩ := h
        subst h1; subst h2; subst h3
        exact ⟨by simp, he, by simp⟩
      · rw [if_neg he] at h
        cases hs : splitAtVersion l with
        | none =>
            rw [hs] at h
            exact absurd h (by simp)
        | some x =>
            obtain ⟨pre2, v2, post2⟩ := x
            rw [hs] at h
            have h4 : some (e :: pre2, v2, post2) = some (pre, v, post) := h
            rw [Option.some.injEq, Prod.mk.injEq, Prod.mk.injEq] at h4
            obtain ⟨h1, h2, h3⟩ := h4
            subst h1; subst h2; subst h3
            obtain ⟨heq, hv, hpre⟩ := ih pre2 v2 post2 hs
            refine ⟨by rw [heq]; simp, hv, ?_⟩
            intro x hx
            rcases List.mem_cons.mp hx with rfl | hx
            · exact he
            · exact hpre x hx

theorem splitAtVersion_total (l : List BundleEntry) :
    "/VERSION" ∈ pathsOf l →
      ∃ pre v post, splitAtVersion l = some (pre, v, post) := by
  induction l with
  | nil => intro h; simp [pathsOf] at h
  | cons e l ih =>
      intro h
      by_cases he : e.path = "/VERSION"
      · exact ⟨[], e, l, by simp [splitAtVersion, he]⟩
      · have hmem : "/VERSION" ∈ pathsOf l := by
          have h2 : "/VERSION" ∈ e.path :: pathsOf l := by
            simpa only [pathsOf, List.map_cons] using h
          rcases List.mem_cons.mp h2 with h3 | h3
          · exact absurd h3.symm he
          · exact h3
        obtain ⟨pre, v, post, hs⟩ := ih hmem
        exact ⟨e :: pre, v, post, by simp [splitAtVersion, he, hs]⟩

/-- Claim C9 (amended): the move-`/VERSION`-to-end step run by both
call sites splices out the FIRST `/VERSION` entry and pushes it to
the end, so the reordered bundle always ends with a `/VERSION`
entry; and at the zip-load call site, whose pipeline first dedups by
path, no other `/VERSION` entry remains before it.  The fetch-latest
call site runs no dedup, so there a duplicate `/VERSION` entry can
remain among the earlier entries. -/
theorem version_move_to_end (l : List BundleEntry)
    (h : ∃ e ∈ l, e.path = "/VERSION") :
    (∃ rest v, moveVersionToEnd l = rest ++ [v] ∧ v.path = "/VERSION")
    ∧ (∃ rest v, bundleOrder l = rest ++ [v] ∧ v.path = "/VERSION"
        ∧ ∀ e ∈ rest, e.path ≠ "/VERSION") := by
  constructor
  · have hk : "/VERSION" ∈ pathsOf l := by
      obtain ⟨e, he, hp⟩ := h
      exact hp ▸ List.mem_map_of_mem (·.path) he
    obtain ⟨pre, v, post, hs⟩ := splitAtVersion_total l hk
    obtain ⟨heq, hv, hpre⟩ := splitAtVersion_spec l pre v post hs
    exact ⟨pre ++ post, v, by simp [moveVersionToEnd, hs], hv⟩
  · have hk : "/VERSION" ∈ pathsOf (dedupeByPath l) := by
      apply dedupe_mem_aux l [] "/VERSION"
      right
      obtain ⟨e, he, hp⟩ := h
      exact hp ▸ List.mem_map_of_mem (·.path) he
    obtain ⟨pre, v, post, hs⟩ := splitAtVersion_total _ hk
    obtain ⟨heq, hv, hpre⟩ := splitAtVersion_spec _ pre v post hs
    have hnd : (pathsOf (dedupeByPath l)).Nodup :=
      dedupe_paths_nodup_aux l [] (by simp [pathsOf])
    have hpost : ∀ e ∈ post, e.path ≠ "/VERSION" := by
      rw [heq] at hnd
      simp only [pathsOf, List.map_append, List.map_cons] at hnd
      have h5 := (List.nodup_append.mp hnd).2
      have hv2 := (List.nodup_cons.mp h5.1)
      intro e hep hee
      exact hv2.1 (by simpa [hee, hv] using List.mem_map_of_mem (·.path) hep)
    refine ⟨pre ++ post, v, ?_, hv, ?_⟩
    · simp [bundleOrder, moveVersionToEnd, hs]
    · intro e hee
      rcases List.mem_append.mp hee with h2 | h2
      · exact hpre e h2
      · exact hpost e h2

/-- Claim C9 is false as stated at the fetch-latest call site
(usb.ts lines 571-576), which runs the move step with no preceding
dedup: with two `/VERSION` entries — realizable there, since a
partially successful recursive fetch followed by the fallback
listing pushes entries a second time without resetting the list
(usb.ts lines 525-542) — `findIndex` moves only the first one, and
the duplicate stays strictly before the end, so not every other
entry precedes the `/VERSION` file. -/
theorem version_move_counterexample :
    moveVersionToEnd
        [BundleEntry.mk "/VERSION" [1], BundleEntry.mk "/a" [],
          BundleEntry.mk "/VERSION" [2]]
      = [BundleEntry.mk "/a" [], BundleEntry.mk "/VERSION" [2],
          BundleEntry.mk "/VERSION" [1]]
    ∧ BundleEntry.mk "/VERSION" [2]
        ∈ [BundleEntry.mk "/a" [], BundleEntry.mk "/VERSION" [2]]
    ∧ (BundleEntry.mk "/VERSION" [2]).path = "/VERSION" := by
  refine ⟨by decide, by decide, rfl⟩

theorem version_move_to_end_witness :
    (∃ e ∈ [BundleEntry.mk "/VERSION" [1], BundleEntry.mk "/a" []],
        e.path = "/VERSION")
    ∧ ((∃ rest v,
          moveVersionToEnd
              [BundleEntry.mk "/VERSION" [1], BundleEntry.mk "/a" []]
            = rest ++ [v] ∧ v.path = "/VERSION")
        ∧ (∃ rest v,
            bundleOrder [BundleEntry.mk "/VERSION" [1], BundleEntry.mk "/a" []]
              = rest ++ [v] ∧ v.path = "/VERSION"
              ∧ ∀ e ∈ rest, e.path ≠ "/VERSION")) :=
  ⟨⟨BundleEntry.mk "/VERSION" [1], by simp⟩,
    version_move_to_end _ ⟨BundleEntry.mk "/VERSION" [1], by simp⟩⟩

theorem encGroups_lt (bs : Bytes) (h : ∀ b ∈ bs, b < 256) :
    ∀ v ∈ encGroups bs, v < 64 := by
  induction bs using encGroups.induct with
  | case1 => simp [encGroups]
  | case2 b1 =>
      have h1 : b1 < 256 := h b1 (by simp)
      intro v hv
      simp only [encGroups, List.mem_cons, List.mem_singleton] at hv
      rcases hv with rfl | rfl | hv
      · omega
      · omega
      · simp at hv
  | case3 b1 b2 =>
      have h1 : b1 < 256 := h b1 (by simp)
      have h2 : b2 < 256 := h b2 (by simp)
      intro v hv
      simp only [encGroups, List.mem_cons, List.mem_singleton] at hv
      rcases hv with rfl | rfl | rfl | hv
      · omega
      · omega
      · omega
      · simp at hv
  | case4 b1 b2 b3 rest ih =>
      have h1 : b1 < 256 := h b1 (by simp)
      have h2 : b2 < 256 := h b2 (by simp)
      have h3 : b3 < 256 := h b3 (by simp)
      have hrest : ∀ b ∈ rest, b < 256 := fun b hb => h b (by simp [hb])
      intro v hv
      simp only [encGroups, List.mem_cons] at hv
      rcases hv with rfl | rfl | rfl | rfl | hv
      · omega
      · omega
      · omega
      · omega
      · exact ih hrest v hv

theorem decGroups_encGroups (bs : Bytes) (h : ∀ b ∈ bs, b < 256) :
    decGroups (encGroups bs) = bs := by
  induction bs using encGroups.induct with
  | case1 => rfl
  | case2 b1 =>
      have h1 : b1 < 256 := h b1 (by simp)
      simp only [encGroups, decGroups, List.cons.injEq, and_true]
      omega
  | case3 b1 b2 =>
      have h1 : b1 < 256 := h b1 (by simp)
      have h2 : b2 < 256 := h b2 (by simp)
      simp only [encGroups, decGroups, List.cons.injEq, and_true]
      constructor
      · omega
      · omega
  | case4 b1 b2 b3 rest ih =>
      have h1 : b1 < 256 := h b1 (by simp)
      have h2 : b2 < 256 := h b2 (by simp)
      have h3 : b3 < 256 := h b3 (by simp)
      have hrest : ∀ b ∈ rest, b < 256 := fun b hb => h b (by simp [hb])
      simp only [encGroups, decGroups, List.cons.injEq]
      refine ⟨by omega, by omega, by omega, ih hrest⟩

theorem enc_pad_length (bs : Bytes) :
    ((encGroups bs).length + (b64pad bs).length) % 4 = 0 := by
  induction bs using encGroups.induct with
  | case1 => simp [encGroups, b64pad]
  | case2 b1 => simp [encGroups, b64pad]
  | case3 b1 b2 => simp [encGroups, b64pad]
  | case4 b1 b2 b3 rest ih =>
      simp only [encGroups, b64pad, List.length_cons] at ih ⊢
      omega

theorem enc_length_ne_one (bs : Bytes) :
    (encGroups bs).length % 4 ≠ 1 := by
  induction bs using encGroups.induct with
  | case1 => simp [encGroups]
  | case2 b1 => simp [encGroups]
  | case3 b1 b2 => simp [encGroups]
  | case4 b1 b2 b3 rest ih =>
      simp only [encGroups, List.length_cons] at ih ⊢
      omega

theorem b64pad_cases (bs : Bytes) :
    b64pad bs = [] ∨ b64pad bs = ['='] ∨ b64pad bs = ['=', '='] := by
  induction bs using b64pad.induct with
  | case1 => left; rfl
  | case2 => right; right; rfl
  | case3 => right; left; rfl
  | case4 _ _ _ rest ih => simpa [b64pad] using ih

theorem b64pad_single_enc_ne_nil (bs : Bytes) :
    b64pad bs = ['='] → encGroups bs ≠ [] := by
  induction bs using b64pad.induct with
  | case1 => intro h; simp [b64pad] at h
  | case2 => intro h; simp [b64pad] at h
  | case3 => intro _; simp [encGroups]
  | case4 _ _ _ rest _ => intro _; simp [encGroups]

theorem b64Char_lt_spec :
    ∀ n, n < 64 →
      b64Char n ≠ '=' ∧ isB64Ws (b64Char n) = false
        ∧ b64Index (b64Char n) = some n ∧ b64Char n ≠ eotChar := by
  decide

theorem b64Char_ne_eot (n : Nat) : b64Char n ≠ eotChar := by
  by_cases hn : n < 64
  · exact (b64Char_lt_spec n hn).2.2.2
  · unfold b64Char
    rw [List.getD_eq_default]
    · decide
    · have : b64Alphabet.length = 64 := by decide
      omega

theorem getLast_mem_of_eq (l : List Char) (c : Char)
    (h : l.getLast? = some c) : c ∈ l := by
  induction l with
  | nil => simp at h
  | cons a l ih =>
      cases l with
      | nil =>
          simp only [List.getLast?_singleton, Option.some.injEq] at h
          simp [h]
      | cons b l2 =>
          rw [List.getLast?_cons_cons] at h
          exact List.mem_cons_of_mem a (ih h)

theorem no_pad_getLast (e : List Char) (h : ∀ c ∈ e, c ≠ '=') :
    e.getLast? ≠ some '=' := by
  intro hl
  exact h '=' (getLast_mem_of_eq e '=' hl) rfl

theorem dropB64Pad_no_pad (e : List Char) (h : ∀ c ∈ e, c ≠ '=') :
    dropB64Pad e = e := by
  unfold dropB64Pad
  rw [if_neg (no_pad_getLast e h)]

theorem dropB64Pad_one (e : List Char) (h : ∀ c ∈ e, c ≠ '=') :
    dropB64Pad (e ++ ['=']) = e := by
  unfold dropB64Pad
  rw [List.getLast?_concat, List.dropLast_concat]
  rw [if_pos rfl, if_neg (no_pad_getLast e h)]

theorem dropB64Pad_two (e : List Char) (_h : ∀ c ∈ e, c ≠ '=') :
    dropB64Pad (e ++ ['=', '=']) = e := by
  unfold dropB64Pad
  rw [show e ++ ['=', '='] = (e ++ ['=']) ++ ['='] by simp,
    List.getLast?_concat, List.dropLast_concat, List.getLast?_concat,
    List.dropLast_concat]
  rw [if_pos rfl, if_pos rfl]

theorem mapM_b64Index (vs : List Nat) (h : ∀ v ∈ vs, v < 64) :
    (vs.map b64Char).mapM b64Index = some vs := by
  induction vs with
  | nil => rfl
  | cons v vs ih =>
      have hv : v < 64 := h v (by simp)
      have hvs : ∀ u ∈ vs, u < 64 := fun u hu => h u (by simp [hu])
      simp only [List.map_cons, List.mapM_cons]
      rw [(b64Char_lt_spec v hv).2.2.1, ih hvs]
      rfl

theorem atob_b2a_base64 (bs : Bytes) (h : ∀ b ∈ bs, b < 256) :
    atob (b2a_base64 bs) = some bs := by
  have henc : ∀ v ∈ encGroups bs, v < 64 := encGroups_lt bs h
  have hne_pad : ∀ c ∈ (encGroups bs).map b64Char, c ≠ '=' := by
    intro c hc
    rcases List.mem_map.mp hc with ⟨v, hv, rfl⟩
    exact (b64Char_lt_spec v (henc v hv)).1
  have hfil : (b2a_base64 bs).filter (fun c => !isB64Ws c)
      = (encGroups bs).map b64Char ++ b64pad bs := by
    unfold b2a_base64
    rw [List.filter_append, List.filter_append]
    have h1 : ((encGroups bs).map b64Char).filter (fun c => !isB64Ws c)
        = (encGroups bs).map b64Char := by
      rw [List.filter_eq_self]
      intro c hc
      rcases List.mem_map.mp hc with ⟨v, hv, rfl⟩
      simp [(b64Char_lt_spec v (henc v hv)).2.1]
    have h2 : (b64pad bs).filter (fun c => !isB64Ws c) = b64pad bs := by
      rcases b64pad_cases bs with hp | hp | hp <;> rw [hp] <;> decide
    have h3 : ([Char.ofNat 10]).filter (fun c => !isB64Ws c) = [] := by decide
    rw [h1, h2, h3, List.append_nil]
  have hdrop : dropB64Pad ((encGroups bs).map b64Char ++ b64pad bs)
      = (encGroups bs).map b64Char := by
    rcases b64pad_cases bs with hp | hp | hp
    · rw [hp, List.append_nil]
      exact dropB64Pad_no_pad _ hne_pad
    · rw [hp]
      exact dropB64Pad_one _ hne_pad
    · rw [hp]
      exact dropB64Pad_two _ hne_pad
  have hlen : ((encGroups bs).map b64Char ++ b64pad bs).length % 4 = 0 := by
    simpa using enc_pad_length bs
  have hlen2 : ((encGroups bs).map b64Char).length % 4 ≠ 1 := by
    simpa using enc_length_ne_one bs
  unfold atob
  simp only
  rw [hfil, if_pos hlen, hdrop, if_neg hlen2,
    mapM_b64Index (encGroups bs) henc]
  show some (decGroups (encGroups bs)) = some bs
  rw [decGroups_encGroups bs h]

theorem indexOfSub_startOK (rest : List Char) :
    indexOfSub ('O' :: 'K' :: rest) ['O', 'K'] = some 0 := by
  simp [indexOfSub, strStarts]

theorem indexOfSub_single (c : Char) (r : List Char) :
    ∀ l : List Char, c ∉ l → indexOfSub (l ++ c :: r) [c] = some l.length := by
  intro l
  induction l with
  | nil =>
      intro _
      simp [indexOfSub, strStarts]
  | cons u l ih =>
      intro hc
      have hu : c ≠ u := fun he => hc (he ▸ List.mem_cons_self u l)
      have hl : c ∉ l := fun hm => hc (List.mem_cons_of_mem u hm)
      simp only [List.cons_append, indexOfSub, strStarts, List.append_eq]
      rw [if_neg (by simp [hu])]
      rw [ih hl]
      rfl

theorem b2a_no_eot (bs : Bytes) : eotChar ∉ b2a_base64 bs := by
  intro hmem
  unfold b2a_base64 at hmem
  rcases List.mem_append.mp hmem with hmem | hmem
  · rcases List.mem_append.mp hmem with hmem | hmem
    · rcases List.mem_map.mp hmem with ⟨v, _, hv⟩
      exact b64Char_ne_eot v hv
    · rcases b64pad_cases bs with hp | hp | hp
      · rw [hp] at hmem; simp at hmem
      · rw [hp] at hmem
        simp only [List.mem_singleton] at hmem
        exact absurd hmem (by decide)
      · rw [hp] at hmem
        simp only [List.mem_cons, List.mem_singleton, or_self] at hmem
        exact absurd hmem (by decide)
  · simp only [List.mem_singleton] at hmem
    exact absurd hmem (by decide)

/-- Claim C2 fails on the program: the chunked upload does
reassemble the file on the device, but the download command calls
`b2a_base64`, a name HELPER_CODE (part_001 lines 287-319) never
defines, so the device raises NameError and prints nothing; the
slice between `OK` and the first EOF byte is empty, `atob` of the
empty string is the empty byte array, and the round trip returns
`some []` — different from the uploaded content whenever that
content is non-empty. -/
theorem upload_download_roundtrip_fails (content : Bytes)
    (h : content ≠ []) :
    deviceFileAfterUpload content = content
    ∧ uploadDownloadRoundTrip content = some []
    ∧ uploadDownloadRoundTrip content ≠ some content := by
  have hfile : deviceFileAfterUpload content = content :=
    chunksOfSucc_flatten 511 content
  have hempty : uploadDownloadRoundTrip content = some [] := rfl
  refine ⟨hfile, hempty, ?_⟩
  rw [hempty]
  intro hc
  exact h (Option.some.inj hc).symm

theorem upload_download_roundtrip_fails_witness :
    ([1] : Bytes) ≠ []
    ∧ uploadDownloadRoundTrip [1] = some []
    ∧ uploadDownloadRoundTrip [1] ≠ some [1] :=
  ⟨by decide, (upload_download_roundtrip_fails [1] (by decide)).2.1,
    (upload_download_roundtrip_fails [1] (by decide)).2.2⟩

theorem forestInd (P : FSForest → Prop) (hnil : P FSForest.nil)
    (hfile : ∀ n ts, P ts → P (FSForest.cons (FSNode.file n) ts))
    (hdir : ∀ n cs ts, P cs → P ts → P (FSForest.cons (FSNode.dir n cs) ts)) :
    ∀ ts, P ts := by
  have H : ∀ k (ts : FSForest), sizeOf ts ≤ k → P ts := by
    intro k
    induction k with
    | zero =>
        intro ts hts
        cases ts with
        | nil => exact hnil
        | cons t rest =>
            exfalso
            have hs := FSForest.cons.sizeOf_spec t rest
            omega
    | succ k ih =>
        intro ts hts
        cases ts with
        | nil => exact hnil
        | cons t rest =>
            cases t with
            | file n =>
                have hs := FSForest.cons.sizeOf_spec (FSNode.file n) rest
                exact hfile n rest (ih rest (by omega))
            | dir n cs =>
                have hs := FSForest.cons.sizeOf_spec (FSNode.dir n cs) rest
                have hs2 := FSNode.dir.sizeOf_spec n cs
                exact hdir n cs rest (ih cs (by omega)) (ih rest (by omega))
  exact fun ts => H (sizeOf ts) ts le_rfl

theorem splitChild_reassemble (ts : FSForest) :
    ∀ n pre t post, splitChild ts n = some (pre, t, post) →
      ts = fApp pre (FSForest.cons t post) := by
  induction ts using forestInd with
  | hnil => intro n pre t post h; simp [splitChild] at h
  | hfile m rest ih =>
      intro n pre t post h
      simp only [splitChild] at h
      by_cases hm : nodeName (FSNode.file m) = n
      · rw [if_pos hm, Option.some.injEq, Prod.mk.injEq, Prod.mk.injEq] at h
        obtain ⟨h1, h2, h3⟩ := h
        rw [← h1, ← h2, ← h3]
        rfl
      · rw [if_neg hm] at h
        cases hs : splitChild rest n with
        | none => rw [hs] at h; exact absurd h (by simp)
        | some x =>
            obtain ⟨pre2, u, post2⟩ := x
            rw [hs] at h
            have h4 : some (FSForest.cons (FSNode.file m) pre2, u, post2)
                = some (pre, t, post) := h
            rw [Option.some.injEq, Prod.mk.injEq, Prod.mk.injEq] at h4
            obtain ⟨h1, h2, h3⟩ := h4
            rw [← h1, ← h2, ← h3, ih n pre2 u post2 hs]
            rfl
  | hdir m cs rest _ ih =>
      intro n pre t post h
      simp only [splitChild] at h
      by_cases hm : nodeName (FSNode.dir m cs) = n
      · rw [if_pos hm, Option.some.injEq, Prod.mk.injEq, Prod.mk.injEq] at h
        obtain ⟨h1, h2, h3⟩ := h
        rw [← h1, ← h2, ← h3]
        rfl
      · rw [if_neg hm] at h
        cases hs : splitChild rest n with
        | none => rw [hs] at h; exact absurd h (by simp)
        | some x =>
            obtain ⟨pre2, u, post2⟩ := x
            rw [hs] at h
            have h4 : some (FSForest.cons (FSNode.dir m cs) pre2, u, post2)
                = some (pre, t, post) := h
            rw [Option.some.injEq, Prod.mk.injEq, Prod.mk.injEq] at h4
            obtain ⟨h1, h2, h3⟩ := h4
            rw [← h1, ← h2, ← h3, ih n pre2 u post2 hs]
            rfl

theorem forestTailInd (P : FSForest → Prop) (hnil : P FSForest.nil)
    (hcons : ∀ t ts, P ts → P (FSForest.cons t ts)) : ∀ ts, P ts := by
  have H : ∀ k (ts : FSForest), sizeOf ts ≤ k → P ts := by
    intro k
    induction k with
    | zero =>
        intro ts hts
        cases ts with
        | nil => exact hnil
        | cons t rest =>
            exfalso
            have hs := FSForest.cons.sizeOf_spec t rest
            omega
    | succ k ih =>
        intro ts hts
        cases ts with
        | nil => exact hnil
        | cons t rest =>
            have hs := FSForest.cons.sizeOf_spec t rest
            exact hcons t rest (ih rest (by omega))
  exact fun ts => H (sizeOf ts) ts le_rfl

theorem splitChild_name (ts : FSForest) :
    ∀ n pre t post, splitChild ts n = some (pre, t, post) → nodeName t = n := by
  induction ts using forestTailInd with
  | hnil => intro n pre t post h; simp [splitChild] at h
  | hcons u rest ih =>
      intro n pre t post h
      simp only [splitChild] at h
      by_cases hm : nodeName u = n
      · rw [if_pos hm, Option.some.injEq, Prod.mk.injEq, Prod.mk.injEq] at h
        obtain ⟨h1, h2, h3⟩ := h
        rw [← h2]
        exact hm
      · rw [if_neg hm] at h
        cases hs : splitChild rest n with
        | none => rw [hs] at h; exact absurd h (by simp)
        | some x =>
            obtain ⟨pre2, u2, post2⟩ := x
            rw [hs] at h
            have h4 : some (FSForest.cons u pre2, u2, post2)
                = some (pre, t, post) := h
            rw [Option.some.injEq, Prod.mk.injEq, Prod.mk.injEq] at h4
            obtain ⟨h1, h2, h3⟩ := h4
            rw [← h2]
            exact ih n pre2 u2 post2 hs

theorem splitChild_hit (t : FSNode) (ts : FSForest) (n : String)
    (h : nodeName t = n) :
    splitChild (FSForest.cons t ts) n = some (FSForest.nil, t, ts) := by
  simp [splitChild, h]

theorem splitChild_skip_some (t : FSNode) (ts pre post : FSForest)
    (u : FSNode) (n : String) (h : nodeName t ≠ n)
    (h2 : splitChild ts n = some (pre, u, post)) :
    splitChild (FSForest.cons t ts) n
      = some (FSForest.cons t pre, u, post) := by
  simp only [splitChild]
  rw [if_neg h, h2]

theorem splitChild_replace (ts : FSForest) :
    ∀ n pre t post, splitChild ts n = some (pre, t, post) →
      ∀ t2, nodeName t2 = n →
        splitChild (fApp pre (FSForest.cons t2 post)) n
          = some (pre, t2, post) := by
  induction ts using forestTailInd with
  | hnil => intro n pre t post h; simp [splitChild] at h
  | hcons u rest ih =>
      intro n pre t post h t2 h2
      simp only [splitChild] at h
      by_cases hm : nodeName u = n
      · rw [if_pos hm, Option.some.injEq, Prod.mk.injEq, Prod.mk.injEq] at h
        obtain ⟨h1, h3, h4⟩ := h
        rw [← h1, ← h4]
        show splitChild (FSForest.cons t2 rest) n = _
        exact splitChild_hit t2 rest n h2
      · rw [if_neg hm] at h
        cases hs : splitChild rest n with
        | none => rw [hs] at h; exact absurd h (by simp)
        | some x =>
            obtain ⟨pre2, u2, post2⟩ := x
            rw [hs] at h
            have h4 : some (FSForest.cons u pre2, u2, post2)
                = some (pre, t, post) := h
            rw [Option.some.injEq, Prod.mk.injEq, Prod.mk.injEq] at h4
            obtain ⟨h5, h6, h7⟩ := h4
            rw [← h5, ← h7]
            show splitChild
              (FSForest.cons u (fApp pre2 (FSForest.cons t2 post2))) n = _
            rw [splitChild_skip_some u _ pre2 post2 t2 n hm
              (ih n pre2 u2 post2 hs t2 h2)]

theorem wf_cons (t : FSNode) (ts : FSForest)
    (h : wfForest (FSForest.cons t ts) = true) :
    (forestNames ts).contains (nodeName t) = false
    ∧ wfNode t = true ∧ wfForest ts = true := by
  simp only [wfForest, Bool.and_eq_true, Bool.not_eq_true'] at h
  exact ⟨h.1.1, h.1.2, h.2⟩

theorem wf_splitChild (ts : FSForest) :
    ∀ n pre t post, wfForest ts = true →
      splitChild ts n = some (pre, t, post) → wfNode t = true := by
  induction ts using forestTailInd with
  | hnil => intro n pre t post _ h; simp [splitChild] at h
  | hcons u rest ih =>
      intro n pre t post hw h
      obtain ⟨_, hwu, hwr⟩ := wf_cons u rest hw
      simp only [splitChild] at h
      by_cases hm : nodeName u = n
      · rw [if_pos hm, Option.some.injEq, Prod.mk.injEq, Prod.mk.injEq] at h
        obtain ⟨h1, h2, h3⟩ := h
        exact h2 ▸ hwu
      · rw [if_neg hm] at h
        cases hs : splitChild rest n with
        | none => rw [hs] at h; exact absurd h (by simp)
        | some x =>
            obtain ⟨pre2, u2, post2⟩ := x
            rw [hs] at h
            have h4 : some (FSForest.cons u pre2, u2, post2)
                = some (pre, t, post) := h
            rw [Option.some.injEq, Prod.mk.injEq, Prod.mk.injEq] at h4
            obtain ⟨h1, h2, h3⟩ := h4
            exact h2 ▸ ih n pre2 u2 post2 hwr hs

theorem navigate_getSub (p : List String) :
    ∀ ts d cs, navigate p ts = some (FSNode.dir d cs) →
      getSub p ts = some cs := by
  induction p with
  | nil => intro ts d cs h; simp [navigate] at h
  | cons n rest ih =>
      intro ts d cs h
      cases rest with
      | nil =>
          simp only [navigate] at h
          cases hs : splitChild ts n with
          | none => rw [hs] at h; simp at h
          | some x =>
              obtain ⟨pre, t, post⟩ := x
              rw [hs] at h
              have ht : t = FSNode.dir d cs := by simpa using h
              subst ht
              show getSub [n] ts = some cs
              simp only [getSub]
              rw [hs]
      | cons m rest2 =>
          simp only [navigate] at h
          cases hs : splitChild ts n with
          | none => rw [hs] at h; simp at h
          | some x =>
              obtain ⟨pre, t, post⟩ := x
              rw [hs] at h
              cases t with
              | file nm => exact absurd h (by simp)
              | dir d2 cs2 =>
                  have h2 : navigate (m :: rest2) cs2 = some (FSNode.dir d cs) := h
                  show getSub (n :: m :: rest2) ts = some cs
                  simp only [getSub]
                  rw [hs]
                  exact ih cs2 d cs h2

theorem wf_navigate (p : List String) :
    ∀ ts d cs, wfForest ts = true →
      navigate p ts = some (FSNode.dir d cs) → wfForest cs = true := by
  induction p with
  | nil => intro ts d cs _ h; simp [navigate] at h
  | cons n rest ih =>
      intro ts d cs hw h
      cases rest with
      | nil =>
          simp only [navigate] at h
          cases hs : splitChild ts n with
          | none => rw [hs] at h; simp at h
          | some x =>
              obtain ⟨pre, t, post⟩ := x
              rw [hs] at h
              have ht : t = FSNode.dir d cs := by simpa using h
              subst ht
              have := wf_splitChild ts n pre _ post hw hs
              simpa [wfNode] using this
      | cons m rest2 =>
          simp only [navigate] at h
          cases hs : splitChild ts n with
          | none => rw [hs] at h; simp at h
          | some x =>
              obtain ⟨pre, t, post⟩ := x
              rw [hs] at h
              cases t with
              | file nm => exact absurd h (by simp)
              | dir d2 cs2 =>
                  have h2 : navigate (m :: rest2) cs2 = some (FSNode.dir d cs) := h
                  have hw2 : wfForest cs2 = true := by
                    have := wf_splitChild ts n pre _ post hw hs
                    simpa [wfNode] using this
                  exact ih cs2 d cs hw2 h2

theorem prefixRec_nil (r : FileRec) : prefixRec [] r = r := by
  cases r
  simp [prefixRec]

theorem prefixRec_comp (p q : List String) (r : FileRec) :
    prefixRec p (prefixRec q r) = prefixRec (p ++ q) r := by
  cases r
  simp [prefixRec]

theorem forestRecs_shift (ts : FSForest) :
    ∀ p, forestRecs p ts = (forestRecs [] ts).map (prefixRec p) := by
  induction ts using forestInd with
  | hnil => intro p; rfl
  | hfile n rest ih =>
      intro p
      show nodeRecs p (FSNode.file n) ++ forestRecs p rest = _
      rw [ih p]
      show ⟨p ++ [n], false⟩ :: (forestRecs [] rest).map (prefixRec p)
        = (nodeRecs [] (FSNode.file n) ++ forestRecs [] rest).map (prefixRec p)
      simp [nodeRecs, prefixRec]
  | hdir n cs rest ihc ihr =>
      intro p
      have e : ∀ q, forestRecs q (FSForest.cons (FSNode.dir n cs) rest)
          = ⟨q ++ [n], true⟩ :: (forestRecs (q ++ [n]) cs ++ forestRecs q rest) := by
        intro q
        show nodeRecs q (FSNode.dir n cs) ++ forestRecs q rest = _
        show (⟨q ++ [n], true⟩ :: forestRecs (q ++ [n]) cs) ++ forestRecs q rest = _
        simp
      rw [e p, e []]
      simp only [List.nil_append]
      rw [ihc (p ++ [n]), ihr p, ihc [n]]
      simp only [List.map_cons, List.map_append, List.map_map]
      congr 1
      · simp [prefixRec]

theorem forestRecs_paths (ts : FSForest) :
    ∀ r ∈ forestRecs [] ts, ∃ m q, r.path = m :: q ∧ m ∈ forestNames ts := by
  induction ts using forestInd with
  | hnil => intro r hr; simp [forestRecs] at hr
  | hfile n rest ih =>
      intro r hr
      have hr2 : r ∈ (⟨[n], false⟩ : FileRec) :: forestRecs [] rest := by
        simpa [forestRecs, nodeRecs] using hr
      rcases List.mem_cons.mp hr2 with rfl | hr3
      · exact ⟨n, [], rfl, by simp [forestNames, nodeName]⟩
      · obtain ⟨m, q, hpath, hm⟩ := ih r hr3
        exact ⟨m, q, hpath, by simp [forestNames, hm]⟩
  | hdir n cs rest ihc ihr =>
      intro r hr
      have hr2 : r ∈ (⟨[n], true⟩ : FileRec)
          :: (forestRecs [n] cs ++ forestRecs [] rest) := by
        simpa [forestRecs, nodeRecs] using hr
      rcases List.mem_cons.mp hr2 with rfl | hr3
      · exact ⟨n, [], rfl, by simp [forestNames, nodeName]⟩
      rcases List.mem_append.mp hr3 with hr4 | hr4
      · rw [forestRecs_shift cs [n]] at hr4
        rcases List.mem_map.mp hr4 with ⟨r2, _, rfl⟩
        exact ⟨n, r2.path, rfl, by simp [forestNames, nodeName]⟩
      · obtain ⟨m, q, hpath, hm⟩ := ihr r hr4
        exact ⟨m, q, hpath, by simp [forestNames, hm]⟩

theorem osRemove_leaf_inv (ts : FSForest) (n : String) (ts2 : FSForest)
    (h : osRemove [n] ts = Except.ok ts2) :
    ∃ pre nm post, splitChild ts n = some (pre, FSNode.file nm, post)
      ∧ ts2 = fApp pre post := by
  simp only [osRemove] at h
  cases hs : splitChild ts n with
  | none => rw [hs] at h; exact absurd h (by simp)
  | some x =>
      obtain ⟨pre, t, post⟩ := x
      rw [hs] at h
      cases t with
      | file nm =>
          refine ⟨pre, nm, post, rfl, ?_⟩
          have h2 : Except.ok (fApp pre post) = Except.ok ts2 := h
          simpa using h2.symm
      | dir d cs => exact absurd h (by simp)

theorem osRemove_descend_inv (ts : FSForest) (n m : String)
    (rest : List String) (ts2 : FSForest)
    (h : osRemove (n :: m :: rest) ts = Except.ok ts2) :
    ∃ pre d cs post cs2,
      splitChild ts n = some (pre, FSNode.dir d cs, post)
      ∧ osRemove (m :: rest) cs = Except.ok cs2
      ∧ ts2 = fApp pre (FSForest.cons (FSNode.dir d cs2) post) := by
  simp only [osRemove] at h
  cases hs : splitChild ts n with
  | none => rw [hs] at h; exact absurd h (by simp)
  | some x =>
      obtain ⟨pre, t, post⟩ := x
      rw [hs] at h
      cases t with
      | file nm => exact absurd h (by simp)
      | dir d cs =>
          have h2 : (match osRemove (m :: rest) cs with
              | Except.ok cs2 =>
                  Except.ok (fApp pre (FSForest.cons (FSNode.dir d cs2) post))
              | Except.error e => Except.error e) = Except.ok ts2 := h
          cases hr : osRemove (m :: rest) cs with
          | error e =>
              rw [hr] at h2
              exact absurd h2 (by simp)
          | ok cs2 =>
              rw [hr] at h2
              refine ⟨pre, d, cs, post, cs2, rfl, hr, ?_⟩
              simpa using h2.symm

theorem osRemove_into (ts pre post cs cs2 : FSForest) (n d : String)
    (q : List String) (hq : q ≠ [])
    (hs : splitChild ts n = some (pre, FSNode.dir d cs, post))
    (hr : osRemove q cs = Except.ok cs2) :
    osRemove (n :: q) ts
      = Except.ok (fApp pre (FSForest.cons (FSNode.dir d cs2) post)) := by
  cases q with
  | nil => exact absurd rfl hq
  | cons m rest =>
      simp only [osRemove]
      rw [hs]
      show (match osRemove (m :: rest) cs with
        | Except.ok c2 =>
            Except.ok (fApp pre (FSForest.cons (FSNode.dir d c2) post))
        | Except.error e => Except.error e) = _
      rw [hr]

theorem osRmdir_leaf_inv (ts : FSForest) (n : String) (ts2 : FSForest)
    (h : osRmdir [n] ts = Except.ok ts2) :
    ∃ pre d post, splitChild ts n = some (pre, FSNode.dir d FSForest.nil, post)
      ∧ ts2 = fApp pre post := by
  simp only [osRmdir] at h
  cases hs : splitChild ts n with
  | none => rw [hs] at h; exact absurd h (by simp)
  | some x =>
      obtain ⟨pre, t, post⟩ := x
      rw [hs] at h
      cases t with
      | file nm => exact absurd h (by simp)
      | dir d cs =>
          cases cs with
          | nil =>
              refine ⟨pre, d, post, rfl, ?_⟩
              have h2 : Except.ok (fApp pre post) = Except.ok ts2 := h
              simpa using h2.symm
          | cons u cs3 => exact absurd h (by simp)

theorem osRmdir_descend_inv (ts : FSForest) (n m : String)
    (rest : List String) (ts2 : FSForest)
    (h : osRmdir (n :: m :: rest) ts = Except.ok ts2) :
    ∃ pre d cs post cs2,
      splitChild ts n = some (pre, FSNode.dir d cs, post)
      ∧ osRmdir (m :: rest) cs = Except.ok cs2
      ∧ ts2 = fApp pre (FSForest.cons (FSNode.dir d cs2) post) := by
  simp only [osRmdir] at h
  cases hs : splitChild ts n with
  | none => rw [hs] at h; exact absurd h (by simp)
  | some x =>
      obtain ⟨pre, t, post⟩ := x
      rw [hs] at h
      cases t with
      | file nm => exact absurd h (by simp)
      | dir d cs =>
          have h2 : (match osRmdir (m :: rest) cs with
              | Except.ok cs2 =>
                  Except.ok (fApp pre (FSForest.cons (FSNode.dir d cs2) post))
              | Except.error e => Except.error e) = Except.ok ts2 := h
          cases hr : osRmdir (m :: rest) cs with
          | error e =>
              rw [hr] at h2
              exact absurd h2 (by simp)
          | ok cs2 =>
              rw [hr] at h2
              refine ⟨pre, d, cs, post, cs2, rfl, hr, ?_⟩
              simpa using h2.symm

theorem osRmdir_into (ts pre post cs cs2 : FSForest) (n d : String)
    (q : List String) (hq : q ≠ [])
    (hs : splitChild ts n = some (pre, FSNode.dir d cs, post))
    (hr : osRmdir q cs = Except.ok cs2) :
    osRmdir (n :: q) ts
      = Except.ok (fApp pre (FSForest.cons (FSNode.dir d cs2) post)) := by
  cases q with
  | nil => exact absurd rfl hq
  | cons m rest =>
      simp only [osRmdir]
      rw [hs]
      show (match osRmdir (m :: rest) cs with
        | Except.ok c2 =>
            Except.ok (fApp pre (FSForest.cons (FSNode.dir d c2) post))
        | Except.error e => Except.error e) = _
      rw [hr]

theorem osRemove_frame (t : FSNode) (ts ts2 : FSForest) (m : String)
    (q : List String) (hm : m ≠ nodeName t)
    (h : osRemove (m :: q) ts = Except.ok ts2) :
    osRemove (m :: q) (FSForest.cons t ts) = Except.ok (FSForest.cons t ts2) := by
  cases q with
  | nil =>
      obtain ⟨pre, nm, post, hs, rfl⟩ := osRemove_leaf_inv ts m ts2 h
      simp only [osRemove]
      rw [splitChild_skip_some t ts pre post _ m (fun he => hm he.symm) hs]
      rfl
  | cons k rest =>
      obtain ⟨pre, d, cs, post, cs2, hs, hr, rfl⟩ :=
        osRemove_descend_inv ts m k rest ts2 h
      simp only [osRemove]
      rw [splitChild_skip_some t ts pre post _ m (fun he => hm he.symm) hs]
      show (match osRemove (k :: rest) cs with
        | Except.ok c2 => Except.ok
            (fApp (FSForest.cons t pre) (FSForest.cons (FSNode.dir d c2) post))
        | Except.error e => Except.error e) = _
      rw [hr]
      rfl

theorem osRmdir_frame (t : FSNode) (ts ts2 : FSForest) (m : String)
    (q : List String) (hm : m ≠ nodeName t)
    (h : osRmdir (m :: q) ts = Except.ok ts2) :
    osRmdir (m :: q) (FSForest.cons t ts) = Except.ok (FSForest.cons t ts2) := by
  cases q with
  | nil =>
      obtain ⟨pre, d, post, hs, rfl⟩ := osRmdir_leaf_inv ts m ts2 h
      simp only [osRmdir]
      rw [splitChild_skip_some t ts pre post _ m (fun he => hm he.symm) hs]
      rfl
  | cons k rest =>
      obtain ⟨pre, d, cs, post, cs2, hs, hr, rfl⟩ :=
        osRmdir_descend_inv ts m k rest ts2 h
      simp only [osRmdir]
      rw [splitChild_skip_some t ts pre post _ m (fun he => hm he.symm) hs]
      show (match osRmdir (k :: rest) cs with
        | Except.ok c2 => Except.ok
            (fApp (FSForest.cons t pre) (FSForest.cons (FSNode.dir d c2) post))
        | Except.error e => Except.error e) = _
      rw [hr]
      rfl

theorem deleteFilePass_append (a : List FileRec) :
    ∀ b ts t2, deleteFilePass ts a = Except.ok t2 →
      deleteFilePass ts (a ++ b) = deleteFilePass t2 b := by
  induction a with
  | nil =>
      intro b ts t2 h
      have h3 : ts = t2 := by simpa using (show Except.ok ts = Except.ok t2 from h)
      rw [List.nil_append, h3]
  | cons r rs ih =>
      intro b ts t2 h
      simp only [deleteFilePass] at h
      simp only [List.cons_append, deleteFilePass]
      by_cases hf : r.isFolder
      · rw [if_pos hf] at h ⊢
        exact ih b ts t2 h
      · rw [if_neg hf] at h ⊢
        cases hr : osRemove r.path ts with
        | error e =>
            rw [hr] at h
            exact Except.noConfusion h
        | ok mid =>
            rw [hr] at h
            exact ih b mid t2 h

theorem deleteFolderPass_append (a : List FileRec) :
    ∀ b ts t2, deleteFolderPass ts a = Except.ok t2 →
      deleteFolderPass ts (a ++ b) = deleteFolderPass t2 b := by
  induction a with
  | nil =>
      intro b ts t2 h
      have h3 : ts = t2 := by simpa using (show Except.ok ts = Except.ok t2 from h)
      rw [List.nil_append, h3]
  | cons r rs ih =>
      intro b ts t2 h
      simp only [deleteFolderPass] at h
      simp only [List.cons_append, deleteFolderPass]
      by_cases hf : r.isFolder
      · rw [if_pos hf] at h ⊢
        cases hr : osRmdir r.path ts with
        | error e =>
            rw [hr] at h
            exact Except.noConfusion h
        | ok mid =>
            rw [hr] at h
            exact ih b mid t2 h
      · rw [if_neg hf] at h ⊢
        exact ih b ts t2 h

theorem deleteFilePass_frame (t : FSNode) (rs : List FileRec) :
    ∀ ts ts2, (∀ r ∈ rs, ∃ m q, r.path = m :: q ∧ m ≠ nodeName t) →
      deleteFilePass ts rs = Except.ok ts2 →
      deleteFilePass (FSForest.cons t ts) rs
        = Except.ok (FSForest.cons t ts2) := by
  induction rs with
  | nil =>
      intro ts ts2 _ h
      have h3 : ts = ts2 := by simpa using (show Except.ok ts = Except.ok ts2 from h)
      rw [h3]
      rfl
  | cons r rs ih =>
      intro ts ts2 hn h
      simp only [deleteFilePass] at h ⊢
      by_cases hf : r.isFolder
      · rw [if_pos hf] at h ⊢
        exact ih ts ts2 (fun x hx => hn x (List.mem_cons_of_mem r hx)) h
      · rw [if_neg hf] at h ⊢
        obtain ⟨m, q, hpath, hm⟩ := hn r (List.mem_cons_self r rs)
        cases hr : osRemove r.path ts with
        | error e =>
            rw [hr] at h
            exact Except.noConfusion h
        | ok mid =>
            rw [hr] at h
            have hr2 : osRemove (m :: q) ts = Except.ok mid := hpath ▸ hr
            rw [hpath, osRemove_frame t ts mid m q hm hr2]
            exact ih mid ts2 (fun x hx => hn x (List.mem_cons_of_mem r hx)) h

theorem deleteFolderPass_frame (t : FSNode) (rs : List FileRec) :
    ∀ ts ts2, (∀ r ∈ rs, ∃ m q, r.path = m :: q ∧ m ≠ nodeName t) →
      deleteFolderPass ts rs = Except.ok ts2 →
      deleteFolderPass (FSForest.cons t ts) rs
        = Except.ok (FSForest.cons t ts2) := by
  induction rs with
  | nil =>
      intro ts ts2 _ h
      have h3 : ts = ts2 := by simpa using (show Except.ok ts = Except.ok ts2 from h)
      rw [h3]
      rfl
  | cons r rs ih =>
      intro ts ts2 hn h
      simp only [deleteFolderPass] at h ⊢
      by_cases hf : r.isFolder
      · rw [if_pos hf] at h ⊢
        obtain ⟨m, q, hpath, hm⟩ := hn r (List.mem_cons_self r rs)
        cases hr : osRmdir r.path ts with
        | error e =>
            rw [hr] at h
            exact Except.noConfusion h
        | ok mid =>
            rw [hr] at h
            have hr2 : osRmdir (m :: q) ts = Except.ok mid := hpath ▸ hr
            rw [hpath, osRmdir_frame t ts mid m q hm hr2]
            exact ih mid ts2 (fun x hx => hn x (List.mem_cons_of_mem r hx)) h
      · rw [if_neg hf] at h ⊢
        exact ih ts ts2 (fun x hx => hn x (List.mem_cons_of_mem r hx)) h

theorem deleteFilePass_lift (n d : String) (rs : List FileRec) :
    ∀ ts pre post cs cs2,
      splitChild ts n = some (pre, FSNode.dir d cs, post) →
      (∀ r ∈ rs, r.path ≠ []) →
      deleteFilePass cs rs = Except.ok cs2 →
      deleteFilePass ts (rs.map (prefixRec [n]))
        = Except.ok (fApp pre (FSForest.cons (FSNode.dir d cs2) post)) := by
  induction rs with
  | nil =>
      intro ts pre post cs cs2 hs _ h
      have h3 : cs = cs2 := by simpa using (show Except.ok cs = Except.ok cs2 from h)
      rw [← h3]
      have hre := splitChild_reassemble ts n pre (FSNode.dir d cs) post hs
      rw [← hre]
      rfl
  | cons r rs ih =>
      intro ts pre post cs cs2 hs hp h
      simp only [deleteFilePass, List.map_cons] at h ⊢
      have hfold : (prefixRec [n] r).isFolder = r.isFolder := rfl
      by_cases hf : r.isFolder
      · rw [if_pos hf] at h
        rw [hfold, if_pos hf]
        exact ih ts pre post cs cs2 hs
          (fun x hx => hp x (List.mem_cons_of_mem r hx)) h
      · rw [if_neg hf] at h
        rw [hfold, if_neg hf]
        cases hr : osRemove r.path cs with
        | error e =>
            rw [hr] at h
            exact Except.noConfusion h
        | ok mid =>
            rw [hr] at h
            have hpath : (prefixRec [n] r).path = n :: r.path := rfl
            rw [hpath]
            rw [osRemove_into ts pre post cs mid n d r.path
              (hp r (List.mem_cons_self r rs)) hs hr]
            have hs2 : splitChild
                (fApp pre (FSForest.cons (FSNode.dir d mid) post)) n
                = some (pre, FSNode.dir d mid, post) := by
              refine splitChild_replace ts n pre (FSNode.dir d cs) post hs
                (FSNode.dir d mid) ?_
              exact splitChild_name ts n pre (FSNode.dir d cs) post hs
            exact ih _ pre post mid cs2 hs2
              (fun x hx => hp x (List.mem_cons_of_mem r hx)) h

theorem deleteFolderPass_lift (n d : String) (rs : List FileRec) :
    ∀ ts pre post cs cs2,
      splitChild ts n = some (pre, FSNode.dir d cs, post) →
      (∀ r ∈ rs, r.path ≠ []) →
      deleteFolderPass cs rs = Except.ok cs2 →
      deleteFolderPass ts (rs.map (prefixRec [n]))
        = Except.ok (fApp pre (FSForest.cons (FSNode.dir d cs2) post)) := by
  induction rs with
  | nil =>
      intro ts pre post cs cs2 hs _ h
      have h3 : cs = cs2 := by simpa using (show Except.ok cs = Except.ok cs2 from h)
      rw [← h3]
      have hre := splitChild_reassemble ts n pre (FSNode.dir d cs) post hs
      rw [← hre]
      rfl
  | cons r rs ih =>
      intro ts pre post cs cs2 hs hp h
      simp only [deleteFolderPass, List.map_cons] at h ⊢
      have hfold : (prefixRec [n] r).isFolder = r.isFolder := rfl
      by_cases hf : r.isFolder
      · rw [if_pos hf] at h
        rw [hfold, if_pos hf]
        cases hr : osRmdir r.path cs with
        | error e =>
            rw [hr] at h
            exact Except.noConfusion h
        | ok mid =>
            rw [hr] at h
            have hpath : (prefixRec [n] r).path = n :: r.path := rfl
            rw [hpath]
            rw [osRmdir_into ts pre post cs mid n d r.path
              (hp r (List.mem_cons_self r rs)) hs hr]
            have hs2 : splitChild
                (fApp pre (FSForest.cons (FSNode.dir d mid) post)) n
                = some (pre, FSNode.dir d mid, post) := by
              refine splitChild_replace ts n pre (FSNode.dir d cs) post hs
                (FSNode.dir d mid) ?_
              exact splitChild_name ts n pre (FSNode.dir d cs) post hs
            exact ih _ pre post mid cs2 hs2
              (fun x hx => hp x (List.mem_cons_of_mem r hx)) h
      · rw [if_neg hf] at h
        rw [hfold, if_neg hf]
        exact ih ts pre post cs cs2 hs
          (fun x hx => hp x (List.mem_cons_of_mem r hx)) h

theorem stripFilesF_file (n : String) (ts : FSForest) :
    stripFilesF (FSForest.cons (FSNode.file n) ts) = stripFilesF ts := rfl

theorem stripFilesF_dir (n : String) (cs ts : FSForest) :
    stripFilesF (FSForest.cons (FSNode.dir n cs) ts)
      = FSForest.cons (FSNode.dir n (stripFilesF cs)) (stripFilesF ts) := rfl

theorem contains_false_not_mem (l : List String) (n : String)
    (h : l.contains n = false) : n ∉ l := by
  intro hm
  simp_all

theorem filePass_core (cs : FSForest) :
    wfForest cs = true →
      deleteFilePass cs (forestRecs [] cs) = Except.ok (stripFilesF cs) := by
  induction cs using forestInd with
  | hnil => intro _; rfl
  | hfile n rest ih =>
      intro hw
      obtain ⟨_, _, hwr⟩ := wf_cons _ rest hw
      have hrecs : forestRecs [] (FSForest.cons (FSNode.file n) rest)
          = (⟨[n], false⟩ : FileRec) :: forestRecs [] rest := by
        show nodeRecs [] (FSNode.file n) ++ forestRecs [] rest = _
        rfl
      rw [hrecs]
      have hrm : osRemove [n] (FSForest.cons (FSNode.file n) rest)
          = Except.ok rest := by
        simp only [osRemove]
        rw [splitChild_hit (FSNode.file n) rest n rfl]
        rfl
      show (match osRemove [n] (FSForest.cons (FSNode.file n) rest) with
        | Except.ok ts2 => deleteFilePass ts2 (forestRecs [] rest)
        | Except.error e => Except.error e) = _
      rw [hrm]
      show deleteFilePass rest (forestRecs [] rest) = _
      rw [stripFilesF_file]
      exact ih hwr
  | hdir n cs rest ihc ihr =>
      intro hw
      obtain ⟨hnm, hwn, hwr⟩ := wf_cons _ rest hw
      have hwc : wfForest cs = true := by simpa [wfNode] using hwn
      have hnin : n ∉ forestNames rest :=
        contains_false_not_mem _ _ hnm
      have hrecs : forestRecs [] (FSForest.cons (FSNode.dir n cs) rest)
          = (⟨[n], true⟩ : FileRec)
              :: (forestRecs [n] cs ++ forestRecs [] rest) := by
        show nodeRecs [] (FSNode.dir n cs) ++ forestRecs [] rest = _
        show (⟨[] ++ [n], true⟩ :: forestRecs ([] ++ [n]) cs)
            ++ forestRecs [] rest = _
        simp
      rw [hrecs]
      show deleteFilePass (FSForest.cons (FSNode.dir n cs) rest)
        (forestRecs [n] cs ++ forestRecs [] rest) = _
      have hpart1 : deleteFilePass (FSForest.cons (FSNode.dir n cs) rest)
          (forestRecs [n] cs)
          = Except.ok (FSForest.cons (FSNode.dir n (stripFilesF cs)) rest) := by
        rw [forestRecs_shift cs [n]]
        have hlift := deleteFilePass_lift n n (forestRecs [] cs)
          (FSForest.cons (FSNode.dir n cs) rest) FSForest.nil rest cs
          (stripFilesF cs)
          (splitChild_hit (FSNode.dir n cs) rest n rfl)
          (fun r hr => by
            obtain ⟨m, q, hp2, _⟩ := forestRecs_paths cs r hr
            rw [hp2]
            exact List.cons_ne_nil m q)
          (ihc hwc)
        exact hlift
      rw [deleteFilePass_append (forestRecs [n] cs) (forestRecs [] rest)
        _ _ hpart1]
      rw [stripFilesF_dir]
      refine deleteFilePass_frame (FSNode.dir n (stripFilesF cs))
        (forestRecs [] rest) rest (stripFilesF rest) ?_ (ihr hwr)
      intro r hr
      obtain ⟨m, q, hp2, hm⟩ := forestRecs_paths rest r hr
      refine ⟨m, q, hp2, ?_⟩
      intro he
      have he2 : m = n := he
      exact hnin (he2 ▸ hm)

theorem folderPass_core (cs : FSForest) :
    wfForest cs = true →
      deleteFolderPass (stripFilesF cs) (forestRecs [] cs).reverse
        = Except.ok FSForest.nil := by
  induction cs using forestInd with
  | hnil => intro _; rfl
  | hfile n rest ih =>
      intro hw
      obtain ⟨_, _, hwr⟩ := wf_cons _ rest hw
      have hrecs : forestRecs [] (FSForest.cons (FSNode.file n) rest)
          = (⟨[n], false⟩ : FileRec) :: forestRecs [] rest := by
        show nodeRecs [] (FSNode.file n) ++ forestRecs [] rest = _
        rfl
      rw [hrecs, List.reverse_cons, stripFilesF_file]
      rw [deleteFolderPass_append (forestRecs [] rest).reverse
        [⟨[n], false⟩] _ _ (ih hwr)]
      rfl
  | hdir n cs rest ihc ihr =>
      intro hw
      obtain ⟨hnm, hwn, hwr⟩ := wf_cons _ rest hw
      have hwc : wfForest cs = true := by simpa [wfNode] using hwn
      have hnin : n ∉ forestNames rest := contains_false_not_mem _ _ hnm
      have hrecs : forestRecs [] (FSForest.cons (FSNode.dir n cs) rest)
          = (⟨[n], true⟩ : FileRec)
              :: (forestRecs [n] cs ++ forestRecs [] rest) := by
        show nodeRecs [] (FSNode.dir n cs) ++ forestRecs [] rest = _
        show (⟨[] ++ [n], true⟩ :: forestRecs ([] ++ [n]) cs)
            ++ forestRecs [] rest = _
        simp
      rw [hrecs, stripFilesF_dir, List.reverse_cons, List.reverse_append]
      have hstep1 : deleteFolderPass
          (FSForest.cons (FSNode.dir n (stripFilesF cs)) (stripFilesF rest))
          (forestRecs [] rest).reverse
          = Except.ok (FSForest.cons (FSNode.dir n (stripFilesF cs))
              FSForest.nil) := by
        refine deleteFolderPass_frame (FSNode.dir n (stripFilesF cs))
          (forestRecs [] rest).reverse (stripFilesF rest) FSForest.nil
          ?_ (ihr hwr)
        intro r hr
        obtain ⟨m, q, hp2, hm⟩ :=
          forestRecs_paths rest r (List.mem_reverse.mp hr)
        refine ⟨m, q, hp2, ?_⟩
        intro he
        have he2 : m = n := he
        exact hnin (he2 ▸ hm)
      have hstep2 : deleteFolderPass
          (FSForest.cons (FSNode.dir n (stripFilesF cs)) FSForest.nil)
          (forestRecs [n] cs).reverse
          = Except.ok (FSForest.cons (FSNode.dir n FSForest.nil)
              FSForest.nil) := by
        rw [forestRecs_shift cs [n], ← List.map_reverse]
        have hlift := deleteFolderPass_lift n n (forestRecs [] cs).reverse
          (FSForest.cons (FSNode.dir n (stripFilesF cs)) FSForest.nil)
          FSForest.nil FSForest.nil (stripFilesF cs) FSForest.nil
          (splitChild_hit (FSNode.dir n (stripFilesF cs)) FSForest.nil n rfl)
          (fun r hr => by
            obtain ⟨m, q, hp2, _⟩ :=
              forestRecs_paths cs r (List.mem_reverse.mp hr)
            rw [hp2]
            exact List.cons_ne_nil m q)
          (ihc hwc)
        exact hlift
      have hstep12 : deleteFolderPass
          (FSForest.cons (FSNode.dir n (stripFilesF cs)) (stripFilesF rest))
          ((forestRecs [] rest).reverse ++ (forestRecs [n] cs).reverse)
          = Except.ok (FSForest.cons (FSNode.dir n FSForest.nil)
              FSForest.nil) := by
        rw [deleteFolderPass_append (forestRecs [] rest).reverse
          (forestRecs [n] cs).reverse _ _ hstep1]
        exact hstep2
      rw [deleteFolderPass_append
        ((forestRecs [] rest).reverse ++ (forestRecs [n] cs).reverse)
        [⟨[n], true⟩] _ _ hstep12]
      have hlast : osRmdir [n]
          (FSForest.cons (FSNode.dir n FSForest.nil) FSForest.nil)
          = Except.ok FSForest.nil := by
        simp only [osRmdir]
        rw [splitChild_hit (FSNode.dir n FSForest.nil) FSForest.nil n rfl]
        rfl
      show (match osRmdir [n]
          (FSForest.cons (FSNode.dir n FSForest.nil) FSForest.nil) with
        | Except.ok ts2 => deleteFolderPass ts2 []
        | Except.error e => Except.error e) = _
      rw [hlast]
      rfl

theorem getSub_none (ts : FSForest) (n : String) (rest : List String)
    (h : splitChild ts n = none) : getSub (n :: rest) ts = none := by
  simp only [getSub]
  rw [h]

theorem getSub_file (ts pre post : FSForest) (n m : String)
    (rest : List String)
    (h : splitChild ts n = some (pre, FSNode.file m, post)) :
    getSub (n :: rest) ts = none := by
  simp only [getSub]
  rw [h]

theorem getSub_dir (ts pre post cs0 : FSForest) (n d : String)
    (rest : List String)
    (h : splitChild ts n = some (pre, FSNode.dir d cs0, post)) :
    getSub (n :: rest) ts = getSub rest cs0 := by
  simp only [getSub]
  rw [h]

theorem setSubtree_dir (ts pre post cs0 cs2 : FSForest) (n d : String)
    (rest : List String)
    (h : splitChild ts n = some (pre, FSNode.dir d cs0, post)) :
    setSubtree (n :: rest) cs2 ts
      = fApp pre (FSForest.cons (FSNode.dir d (setSubtree rest cs2 cs0)) post) := by
  simp only [setSubtree]
  rw [h]

theorem eraseNode_leaf (ts pre post : FSForest) (t : FSNode) (n : String)
    (h : splitChild ts n = some (pre, t, post)) :
    eraseNode [n] ts = fApp pre post := by
  simp only [eraseNode]
  rw [h]

theorem eraseNode_dir (ts pre post cs0 : FSForest) (n d m : String)
    (rest : List String)
    (h : splitChild ts n = some (pre, FSNode.dir d cs0, post)) :
    eraseNode (n :: m :: rest) ts
      = fApp pre (FSForest.cons
          (FSNode.dir d (eraseNode (m :: rest) cs0)) post) := by
  simp only [eraseNode]
  rw [h]

theorem deleteFilePass_lift_path (p : List String) :
    ∀ ts cs cs2 rs, getSub p ts = some cs →
      (∀ r ∈ rs, r.path ≠ []) →
      deleteFilePass cs rs = Except.ok cs2 →
      deleteFilePass ts (rs.map (prefixRec p))
        = Except.ok (setSubtree p cs2 ts) := by
  induction p with
  | nil =>
      intro ts cs cs2 rs hg _ h
      have hcs : ts = cs := by simpa [getSub] using hg
      have hmap : rs.map (prefixRec []) = rs := by
        have h2 : rs.map (prefixRec []) = rs.map id :=
          List.map_congr_left (fun r _ => prefixRec_nil r)
        simpa using h2
      rw [hmap, hcs]
      exact h
  | cons n rest ih =>
      intro ts cs cs2 rs hg hp h
      cases hs : splitChild ts n with
      | none =>
          rw [getSub_none ts n rest hs] at hg
          exact absurd hg (by simp)
      | some x =>
          obtain ⟨pre, t, post⟩ := x
          cases t with
          | file m =>
              rw [getSub_file ts pre post n m rest hs] at hg
              exact absurd hg (by simp)
          | dir d cs0 =>
              rw [getSub_dir ts pre post cs0 n d rest hs] at hg
              have ihres := ih cs0 cs cs2 rs hg hp h
              have hmapc : rs.map (prefixRec (n :: rest))
                  = (rs.map (prefixRec rest)).map (prefixRec [n]) := by
                rw [List.map_map]
                apply List.map_congr_left
                intro r _
                exact (prefixRec_comp [n] rest r).symm
              rw [hmapc]
              rw [setSubtree_dir ts pre post cs0 cs2 n d rest hs]
              refine deleteFilePass_lift n d (rs.map (prefixRec rest))
                ts pre post cs0 (setSubtree rest cs2 cs0) hs ?_ ihres
              intro r hr
              rcases List.mem_map.mp hr with ⟨r0, hr0, rfl⟩
              show rest ++ r0.path ≠ []
              intro hc
              exact hp r0 hr0 (List.append_eq_nil.mp hc).2

theorem deleteFolderPass_lift_path (p : List String) :
    ∀ ts cs cs2 rs, getSub p ts = some cs →
      (∀ r ∈ rs, r.path ≠ []) →
      deleteFolderPass cs rs = Except.ok cs2 →
      deleteFolderPass ts (rs.map (prefixRec p))
        = Except.ok (setSubtree p cs2 ts) := by
  induction p with
  | nil =>
      intro ts cs cs2 rs hg _ h
      have hcs : ts = cs := by simpa [getSub] using hg
      have hmap : rs.map (prefixRec []) = rs := by
        have h2 : rs.map (prefixRec []) = rs.map id :=
          List.map_congr_left (fun r _ => prefixRec_nil r)
        simpa using h2
      rw [hmap, hcs]
      exact h
  | cons n rest ih =>
      intro ts cs cs2 rs hg hp h
      cases hs : splitChild ts n with
      | none =>
          rw [getSub_none ts n rest hs] at hg
          exact absurd hg (by simp)
      | some x =>
          obtain ⟨pre, t, post⟩ := x
          cases t with
          | file m =>
              rw [getSub_file ts pre post n m rest hs] at hg
              exact absurd hg (by simp)
          | dir d cs0 =>
              rw [getSub_dir ts pre post cs0 n d rest hs] at hg
              have ihres := ih cs0 cs cs2 rs hg hp h
              have hmapc : rs.map (prefixRec (n :: rest))
                  = (rs.map (prefixRec rest)).map (prefixRec [n]) := by
                rw [List.map_map]
                apply List.map_congr_left
                intro r _
                exact (prefixRec_comp [n] rest r).symm
              rw [hmapc]
              rw [setSubtree_dir ts pre post cs0 cs2 n d rest hs]
              refine deleteFolderPass_lift n d (rs.map (prefixRec rest))
                ts pre post cs0 (setSubtree rest cs2 cs0) hs ?_ ihres
              intro r hr
              rcases List.mem_map.mp hr with ⟨r0, hr0, rfl⟩
              show rest ++ r0.path ≠ []
              intro hc
              exact hp r0 hr0 (List.append_eq_nil.mp hc).2

theorem getSub_setSubtree (p : List String) :
    ∀ ts cs cs2, getSub p ts = some cs →
      getSub p (setSubtree p cs2 ts) = some cs2 := by
  induction p with
  | nil => intro ts cs cs2 _; rfl
  | cons n rest ih =>
      intro ts cs cs2 hg
      cases hs : splitChild ts n with
      | none =>
          rw [getSub_none ts n rest hs] at hg
          exact absurd hg (by simp)
      | some x =>
          obtain ⟨pre, t, post⟩ := x
          cases t with
          | file m =>
              rw [getSub_file ts pre post n m rest hs] at hg
              exact absurd hg (by simp)
          | dir d cs0 =>
              rw [getSub_dir ts pre post cs0 n d rest hs] at hg
              have hname : nodeName (FSNode.dir d cs0) = n :=
                splitChild_name ts n pre _ post hs
              have hs2 := splitChild_replace ts n pre _ post hs
                (FSNode.dir d (setSubtree rest cs2 cs0)) hname
              rw [setSubtree_dir ts pre post cs0 cs2 n d rest hs]
              rw [getSub_dir _ pre post _ n d rest hs2]
              exact ih cs0 cs cs2 hg

theorem osRmdir_setSubtree_nil (p : List String) :
    ∀ ts cs, p ≠ [] → getSub p ts = some cs →
      osRmdir p (setSubtree p FSForest.nil ts)
        = Except.ok (eraseNode p ts) := by
  induction p with
  | nil => intro ts cs h _; exact absurd rfl h
  | cons n rest ih =>
      intro ts cs _ hg
      cases hs : splitChild ts n with
      | none =>
          rw [getSub_none ts n rest hs] at hg
          exact absurd hg (by simp)
      | some x =>
          obtain ⟨pre, t, post⟩ := x
          cases t with
          | file m =>
              rw [getSub_file ts pre post n m rest hs] at hg
              exact absurd hg (by simp)
          | dir d cs0 =>
              rw [getSub_dir ts pre post cs0 n d rest hs] at hg
              have hname : nodeName (FSNode.dir d cs0) = n :=
                splitChild_name ts n pre _ post hs
              rw [setSubtree_dir ts pre post cs0 FSForest.nil n d rest hs]
              cases rest with
              | nil =>
                  have hs2 := splitChild_replace ts n pre _ post hs
                    (FSNode.dir d FSForest.nil) hname
                  rw [eraseNode_leaf ts pre post _ n hs]
                  show osRmdir [n]
                    (fApp pre (FSForest.cons (FSNode.dir d FSForest.nil) post))
                    = _
                  simp only [osRmdir]
                  rw [hs2]
              | cons m rest2 =>
                  have hs2 := splitChild_replace ts n pre _ post hs
                    (FSNode.dir d (setSubtree (m :: rest2) FSForest.nil cs0))
                    hname
                  rw [eraseNode_dir ts pre post cs0 n d m rest2 hs]
                  exact osRmdir_into _ pre post _ _ n d (m :: rest2)
                    (List.cons_ne_nil m rest2) hs2
                    (ih cs0 cs (List.cons_ne_nil m rest2) hg)

theorem eraseNode_setSubtree (p : List String) :
    ∀ ts cs cs2, p ≠ [] → getSub p ts = some cs →
      eraseNode p (setSubtree p cs2 ts) = eraseNode p ts := by
  induction p with
  | nil => intro ts cs cs2 h _; exact absurd rfl h
  | cons n rest ih =>
      intro ts cs cs2 _ hg
      cases hs : splitChild ts n with
      | none =>
          rw [getSub_none ts n rest hs] at hg
          exact absurd hg (by simp)
      | some x =>
          obtain ⟨pre, t, post⟩ := x
          cases t with
          | file m =>
              rw [getSub_file ts pre post n m rest hs] at hg
              exact absurd hg (by simp)
          | dir d cs0 =>
              rw [getSub_dir ts pre post cs0 n d rest hs] at hg
              have hname : nodeName (FSNode.dir d cs0) = n :=
                splitChild_name ts n pre _ post hs
              rw [setSubtree_dir ts pre post cs0 cs2 n d rest hs]
              cases rest with
              | nil =>
                  have hs2 := splitChild_replace ts n pre _ post hs
                    (FSNode.dir d (setSubtree [] cs2 cs0)) hname
                  rw [eraseNode_leaf _ pre post _ n hs2,
                    eraseNode_leaf ts pre post _ n hs]
              | cons m rest2 =>
                  have hs2 := splitChild_replace ts n pre _ post hs
                    (FSNode.dir d (setSubtree (m :: rest2) cs2 cs0)) hname
                  rw [eraseNode_dir _ pre post _ n d m rest2 hs2,
                    eraseNode_dir ts pre post cs0 n d m rest2 hs]
                  rw [ih cs0 cs cs2 (List.cons_ne_nil m rest2) hg]

theorem delete_folder_ok_aux (root : FSForest) (n : String)
    (rest : List String) (d : String) (cs : FSForest)
    (hw : wfForest root = true)
    (hnav : navigate (n :: rest) root = some (FSNode.dir d cs)) :
    delete_folder root (n :: rest)
      = Except.ok (eraseNode (n :: rest) root) := by
  have hget : get_all_files root (n :: rest)
      = Except.ok (forestRecs (n :: rest) cs) := by
    simp only [get_all_files]
    rw [hnav]
  have hwc : wfForest cs = true := wf_navigate (n :: rest) root d cs hw hnav
  have hgs : getSub (n :: rest) root = some cs :=
    navigate_getSub (n :: rest) root d cs hnav
  have hpaths : ∀ r ∈ forestRecs [] cs, r.path ≠ [] := by
    intro r hr
    obtain ⟨m, q, hpath, _⟩ := forestRecs_paths cs r hr
    rw [hpath]
    exact List.cons_ne_nil m q
  have hfiles : forestRecs (n :: rest) cs
      = (forestRecs [] cs).map (prefixRec (n :: rest)) :=
    forestRecs_shift cs (n :: rest)
  have h1 : deleteFilePass root (forestRecs (n :: rest) cs)
      = Except.ok (setSubtree (n :: rest) (stripFilesF cs) root) := by
    rw [hfiles]
    exact deleteFilePass_lift_path (n :: rest) root cs (stripFilesF cs)
      (forestRecs [] cs) hgs hpaths (filePass_core cs hwc)
  have hgs2 : getSub (n :: rest)
      (setSubtree (n :: rest) (stripFilesF cs) root) = some (stripFilesF cs) :=
    getSub_setSubtree (n :: rest) root cs (stripFilesF cs) hgs
  have hpaths2 : ∀ r ∈ (forestRecs [] cs).reverse, r.path ≠ [] := by
    intro r hr
    exact hpaths r (List.mem_reverse.mp hr)
  have h2 : deleteFolderPass (setSubtree (n :: rest) (stripFilesF cs) root)
      (forestRecs (n :: rest) cs).reverse
      = Except.ok (setSubtree (n :: rest) FSForest.nil
          (setSubtree (n :: rest) (stripFilesF cs) root)) := by
    rw [hfiles, (List.map_reverse _ _).symm]
    exact deleteFolderPass_lift_path (n :: rest) _ (stripFilesF cs)
      FSForest.nil (forestRecs [] cs).reverse hgs2 hpaths2
      (folderPass_core cs hwc)
  have h3 : osRmdir (n :: rest) (setSubtree (n :: rest) FSForest.nil
        (setSubtree (n :: rest) (stripFilesF cs) root))
      = Except.ok (eraseNode (n :: rest)
          (setSubtree (n :: rest) (stripFilesF cs) root)) :=
    osRmdir_setSubtree_nil (n :: rest) _ (stripFilesF cs)
      (List.cons_ne_nil n rest) hgs2
  have h4 : eraseNode (n :: rest)
        (setSubtree (n :: rest) (stripFilesF cs) root)
      = eraseNode (n :: rest) root :=
    eraseNode_setSubtree (n :: rest) root cs (stripFilesF cs)
      (List.cons_ne_nil n rest) hgs
  simp only [delete_folder]
  rw [hget]
  show (match deleteFilePass root (forestRecs (n :: rest) cs) with
    | Except.error e => Except.error e
    | Except.ok r1 =>
        match deleteFolderPass r1 (forestRecs (n :: rest) cs).reverse with
        | Except.error e => Except.error e
        | Except.ok r2 => osRmdir (n :: rest) r2)
    = Except.ok (eraseNode (n :: rest) root)
  rw [h1]
  show (match deleteFolderPass
      (setSubtree (n :: rest) (stripFilesF cs) root)
      (forestRecs (n :: rest) cs).reverse with
    | Except.error e => Except.error e
    | Except.ok r2 => osRmdir (n :: rest) r2)
    = Except.ok (eraseNode (n :: rest) root)
  rw [h2]
  show osRmdir (n :: rest) (setSubtree (n :: rest) FSForest.nil
      (setSubtree (n :: rest) (stripFilesF cs) root))
    = Except.ok (eraseNode (n :: rest) root)
  rw [h3, h4]

theorem delete_folder_root_errors (root : FSForest) :
    exceptOk (delete_folder root []) = false := by
  show exceptOk (match deleteFilePass root (forestRecs [] root) with
    | Except.error e => Except.error e
    | Except.ok r1 =>
        match deleteFolderPass r1 (forestRecs [] root).reverse with
        | Except.error e => Except.error e
        | Except.ok r2 => osRmdir [] r2) = false
  cases h1 : deleteFilePass root (forestRecs [] root) with
  | error e => rfl
  | ok r1 =>
      show exceptOk (match deleteFolderPass r1 (forestRecs [] root).reverse with
        | Except.error e => Except.error e
        | Except.ok r2 => osRmdir [] r2) = false
      cases h2 : deleteFolderPass r1 (forestRecs [] root).reverse with
      | error e => rfl
      | ok r2 => rfl

theorem delete_folder_absent_errors (root : FSForest) (p : List String)
    (hp : p ≠ []) (hnav : navigate p root = none) :
    delete_folder root p = Except.error "ENOENT" := by
  obtain ⟨n, rest, rfl⟩ : ∃ n rest, p = n :: rest := by
    cases p with
    | nil => exact absurd rfl hp
    | cons n rest => exact ⟨n, rest, rfl⟩
  have hget : get_all_files root (n :: rest) = Except.error "ENOENT" := by
    simp only [get_all_files]
    rw [hnav]
  simp only [delete_folder]
  rw [hget]

/-- C6: amended behaviour of `delete_folder` (HELPER_CODE lines
287-319, run by `removeFolder`). On a well-formed filesystem,
recursive delete of a directory at a non-root path removes all file
entries of the listed subtree first, then the folder entries in
reverse discovery order, then the path itself, succeeding with
exactly the subtree erased and everything else intact. Contrary to
the spec, removal of the filesystem root is not guarded: the final
`os.rmdir(path)` runs unconditionally and the call errors rather
than being a no-op, and an already-absent path makes
`os.ilistdir` raise, so the call errors with ENOENT rather than
being a no-op. -/
theorem delete_folder_behaviour (root ts : FSForest) (p q : List String)
    (d : String) (cs : FSForest)
    (hw : wfForest root = true) (hp : p ≠ [])
    (hnav : navigate p root = some (FSNode.dir d cs))
    (hq : q ≠ []) (habs : navigate q ts = none) :
    delete_folder root p = Except.ok (eraseNode p root)
      ∧ exceptOk (delete_folder ts []) = false
      ∧ delete_folder ts q = Except.error "ENOENT" := by
  refine ⟨?_, delete_folder_root_errors ts,
    delete_folder_absent_errors ts q hq habs⟩
  obtain ⟨n, rest, rfl⟩ : ∃ n rest, p = n :: rest := by
    cases p with
    | nil => exact absurd rfl hp
    | cons n rest => exact ⟨n, rest, rfl⟩
  exact delete_folder_ok_aux root n rest d cs hw hnav

/-- C6 counterexample: the code does not guard the root and does not
tolerate an absent path. Removing the filesystem root (path `[]`,
the device path `/`) on a one-file filesystem reaches the unguarded
`os.rmdir(path)` and errors, and removing the absent path `x` on an
empty filesystem errors with ENOENT; the spec promises a no-op for
both. -/
theorem delete_folder_counterexample :
    delete_folder (FSForest.cons (FSNode.file "a") FSForest.nil) []
        = Except.error "rmdir: cannot remove root"
      ∧ delete_folder FSForest.nil ["x"] = Except.error "ENOENT" :=
  ⟨rfl, rfl⟩

/-- C6 witness: a concrete run. Deleting directory `d` (holding file
`f` and empty directory `e`) from a filesystem that also holds file
`g` succeeds and leaves exactly `g`; deleting the root of an empty
filesystem is not ok; deleting the absent path `z` errors with
ENOENT. -/
theorem delete_folder_behaviour_witness :
    delete_folder
        (FSForest.cons (FSNode.dir "d"
          (FSForest.cons (FSNode.file "f")
            (FSForest.cons (FSNode.dir "e" FSForest.nil) FSForest.nil)))
          (FSForest.cons (FSNode.file "g") FSForest.nil)) ["d"]
      = Except.ok (eraseNode ["d"]
          (FSForest.cons (FSNode.dir "d"
            (FSForest.cons (FSNode.file "f")
              (FSForest.cons (FSNode.dir "e" FSForest.nil) FSForest.nil)))
            (FSForest.cons (FSNode.file "g") FSForest.nil)))
      ∧ exceptOk (delete_folder FSForest.nil []) = false
      ∧ delete_folder (FSForest.cons (FSNode.file "g") FSForest.nil) ["z"]
          = Except.error "ENOENT" :=
  delete_folder_behaviour
    (FSForest.cons (FSNode.dir "d"
      (FSForest.cons (FSNode.file "f")
        (FSForest.cons (FSNode.dir "e" FSForest.nil) FSForest.nil)))
      (FSForest.cons (FSNode.file "g") FSForest.nil))
    (FSForest.cons (FSNode.file "g") FSForest.nil)
    ["d"] ["z"] "d"
    (FSForest.cons (FSNode.file "f")
      (FSForest.cons (FSNode.dir "e" FSForest.nil) FSForest.nil))
    (by decide) (by decide) rfl (by decide) rfl
